import Mathlib

/-!
Verification of the Hindsight memory engine against its specification.

This file gives a shallow embedding, in Lean 4, of the parts of the
`hindsight-api` engine that the specified claims are about:

* `engine/search/diversity.py` — best-date chain, KNN connected components,
  diversity cluster selection (`cluster_and_select`);
* `engine/retain/deduplication.py` — within-batch deduplication and the
  duplicate-window anchor date;
* `engine/consolidation/consolidator.py` — batching by tag set, the retry
  wrapper around the batched consolidation LLM call, and the create / update /
  delete action execution paths, including the SQL effects on the
  `memory_units` table.

Conventions of the embedding:

* Timestamps are modelled as `Int` (epoch seconds); nullable columns and
  nullable Python attributes are `Option _`.  Python `a or b` on datetimes
  picks the first non-`None` value (datetimes are always truthy), which is
  `Option.orElse`.
* Embedding vectors are `List ℚ`.  `numpy.float32` arithmetic is modelled by
  exact rational arithmetic; `np.dot` is `dotList`.  The L2 normalisation in
  `cluster_and_select` divides by a square root, which is not rational, so the
  clustering model receives the candidates' already-normalised embedding rows
  and computes all pairwise/query similarities itself with `dotList`.  The text
  length bonus `min(0.1, log1p(len(text))/70)` uses a transcendental function
  and is abstracted as a parameter `lengthBonus : Nat → ℚ`.
* The database table `memory_units` is a `List MemoryUnitRow`; SQL statements
  become pure functions from table to table, translated clause by clause
  (e.g. `DELETE ... WHERE id = $1 AND bank_id = $2 AND fact_type =
  'observation'` becomes a `List.filter`).
* The LLM transport is a parameter: the batched consolidation call is a
  function from attempt number to `Option` of the parsed response, `none`
  standing for a raised exception.

The dataclass/record shapes (`RetrievalResult`, `ProcessedFact`, the
`memory_units` row) are reconstructed from their use sites in the embedded
modules and from the storage schema in the specification, since the type
declaration modules themselves are not part of the embedded slice.
-/

namespace Hindsight

/-- A retrieval result as consumed by `engine/search/diversity.py`: the fields
read by `_best_date` and `cluster_and_select`.  The `embedding` field of the
model holds the L2-normalised parsed vector (the float normalisation step is
abstracted); `none` models a candidate whose `embedding` attribute is `None`. -/
structure RetrievalResult where
  text : String
  fact_type : String
  embedding : Option (List ℚ)
  occurred_start : Option Int
  occurred_end : Option Int
  mentioned_at : Option Int
  event_date : Option Int
  deriving Repr, DecidableEq

/-- Embedding of `_best_date` (diversity.py line 41):
`return result.occurred_start or result.mentioned_at or result.event_date`.
Python `or` on optional datetimes returns the first non-None value. -/
def bestDate (result : RetrievalResult) : Option Int :=
  (result.occurred_start.orElse fun _ => result.mentioned_at).orElse fun _ =>
    result.event_date

/-- Modelled from the spec: the temporal priority rule of §3 ("the best-date
function returns `mentioned_at` whenever it is non-null"), restricted to the
fields `RetrievalResult` carries.  Priority: `mentioned_at` first, then the
`occurred_*` chain, then `event_date`.  Used only to exhibit the divergence of
the code's `bestDate` from the specified priority. -/
def bestDateSpec (result : RetrievalResult) : Option Int :=
  (result.mentioned_at.orElse fun _ => result.occurred_start).orElse fun _ =>
    result.event_date

/-- A processed fact as consumed by `engine/retain/deduplication.py`: the
fields read by `check_duplicates_batch` and `_check_within_batch_duplicates`. -/
structure ProcessedFact where
  fact_text : String
  embedding : List ℚ
  occurred_start : Option Int
  mentioned_at : Option Int
  deriving Repr, DecidableEq

/-- A default processed fact, used only as the out-of-range fallback of
positional lookups in the deduplication characterisation. -/
instance : Inhabited ProcessedFact :=
  ⟨{ fact_text := ""
     embedding := []
     occurred_start := none
     mentioned_at := none }⟩

/-- Embedding of the duplicate-window anchor choice in `check_duplicates_batch`
(deduplication.py lines 110–116): `fact_date = fact.occurred_start if
fact.occurred_start is not None else fact.mentioned_at`, defaulting to the
current time when both are `None`. -/
def dedupAnchorDate (fact : ProcessedFact) (now : Int) : Int :=
  match fact.occurred_start with
  | some d => d
  | none =>
    match fact.mentioned_at with
    | some d => d
    | none => now

/-- The concrete counterexample record for the temporal-priority claim:
`mentioned_at = 100` and `occurred_start = 200`, both non-null. -/
def c1Result : RetrievalResult :=
  { text := "Professor rating is 5 stars"
    fact_type := "world"
    embedding := none
    occurred_start := some 200
    occurred_end := some 200
    mentioned_at := some 100
    event_date := none }

/-- The same counterexample as a retain-pipeline fact for the dedup anchor. -/
def c1Fact : ProcessedFact :=
  { fact_text := "Professor rating is 5 stars"
    embedding := [1]
    occurred_start := some 200
    mentioned_at := some 100 }

/-! ## Consolidation engine: data model -/

/-- One row of the `memory_units` table, restricted to the columns touched by
the consolidation engine (schema per the spec's §6 storage schema and the
INSERT/UPDATE/DELETE statements in `consolidator.py`). -/
structure MemoryUnitRow where
  id : String
  bank_id : String
  text : String
  fact_type : String
  embedding : Option (List ℚ)
  tags : List String
  source_memory_ids : List String
  proof_count : Nat
  history : List (String × Int × List String)
  event_date : Option Int
  occurred_start : Option Int
  occurred_end : Option Int
  mentioned_at : Option Int
  consolidated_at : Option Int
  deriving Repr, DecidableEq

/-- An unconsolidated memory as fetched by `run_consolidation_job` (the SELECT
at consolidator.py lines 194–206): `id, text, fact_type, occurred_start,
occurred_end, event_date, tags, mentioned_at`. -/
structure Memory where
  id : String
  text : String
  fact_type : String
  occurred_start : Option Int
  occurred_end : Option Int
  event_date : Option Int
  tags : List String
  mentioned_at : Option Int
  deriving Repr, DecidableEq

/-- A recalled observation snapshot (`MemoryFact`) as read by
`_execute_update_action`: the fields `id`, `text`, `tags`, `source_fact_ids`
are the ones the update path consults. -/
structure MemoryFact where
  id : String
  text : String
  tags : List String
  source_fact_ids : List String
  deriving Repr, DecidableEq

/-- Embedding of `_min_date` (consolidator.py lines 593–595): minimum of the
non-None values, `None` when there are none. -/
def _min_date (dates : List (Option Int)) : Option Int :=
  (dates.filterMap id).foldl
    (fun acc d =>
      match acc with
      | none => some d
      | some a => some (min a d))
    none

/-- Embedding of `_max_date` (consolidator.py lines 598–600): maximum of the
non-None values, `None` when there are none. -/
def _max_date (dates : List (Option Int)) : Option Int :=
  (dates.filterMap id).foldl
    (fun acc d =>
      match acc with
      | none => some d
      | some a => some (max a d))
    none

/-- Postgres `LEAST(col, COALESCE(p, col))` on nullable timestamps, as in the
`occurred_start` clause of the update SQL: `LEAST` ignores NULL arguments. -/
def leastCoalesce (col p : Option Int) : Option Int :=
  match p with
  | none => col
  | some v =>
    match col with
    | none => some v
    | some c => some (min c v)

/-- Postgres `GREATEST(col, COALESCE(p, col))` on nullable timestamps, as in
the `occurred_end` / `mentioned_at` clauses of the update SQL. -/
def greatestCoalesce (col p : Option Int) : Option Int :=
  match p with
  | none => col
  | some v =>
    match col with
    | none => some v
    | some c => some (max c v)

/-- Python `list(set(a) | set(b))` on tag lists (the merged-tags computation of
`_execute_update_action`).  The Python result order is unspecified; the model
fixes left-to-right first-occurrence order, and all claims about tags are
membership-level. -/
def tagSetUnion (a b : List String) : List String :=
  (a ++ b).dedup

/-! ## Consolidation engine: action execution -/

/-- Embedding of `_create_observation_directly` (consolidator.py lines
915–991): builds the inserted `memory_units` row and appends it to the table.
Temporal fields default to `now` when the aggregated value is `None`
(`event_date or now`, etc.); `fact_type` is the literal `'observation'`;
`proof_count` is the literal `1` appearing in both INSERT variants; `history`
is the literal `'[]'`; `consolidated_at` is not in the column list, hence
NULL.  The generated UUID and the embedding-service output are parameters.
Returns the new table and the inserted row. -/
def _create_observation_directly (db : List MemoryUnitRow) (bank_id : String)
    (source_memory_ids : List String) (observation_text : String)
    (tags : List String) (event_date occurred_start occurred_end mentioned_at : Option Int)
    (now : Int) (newId : String) (embedding : Option (List ℚ)) :
    List MemoryUnitRow × MemoryUnitRow :=
  let row : MemoryUnitRow :=
    { id := newId
      bank_id := bank_id
      text := observation_text
      fact_type := "observation"
      embedding := embedding
      tags := tags
      source_memory_ids := source_memory_ids
      proof_count := 1
      history := []
      event_date := some (event_date.getD now)
      occurred_start := some (occurred_start.getD now)
      occurred_end := some (occurred_end.getD now)
      mentioned_at := some (mentioned_at.getD now)
      consolidated_at := none }
  (db ++ [row], row)

/-- Embedding of `_execute_update_action` (consolidator.py lines 603–679).
Looks the cited observation up in the recall snapshot `observations`; when
absent the update is skipped.  Otherwise the UPDATE statement is applied to
the row with the matching `id`: `source_memory_ids` is the snapshot's
`source_fact_ids` extended with the contributing memory ids, `proof_count`
becomes the length of that list, `tags` becomes the set union of snapshot tags
and source-fact tags, and the temporal columns move by
LEAST/GREATEST-COALESCE.  The history entry records the snapshot's previous
text, the change time, and the contributing ids. -/
def _execute_update_action (db : List MemoryUnitRow)
    (source_memory_ids : List String) (observation_id : String)
    (new_text : String) (observations : List MemoryFact)
    (source_fact_tags : List String)
    (source_occurred_start source_occurred_end source_mentioned_at : Option Int)
    (now : Int) (embedding : Option (List ℚ)) : List MemoryUnitRow :=
  match observations.find? (fun m => m.id = observation_id) with
  | none => db
  | some model =>
    let history := [(model.text, now, source_memory_ids)]
    let source_ids := model.source_fact_ids ++ source_memory_ids
    let merged_tags := tagSetUnion model.tags source_fact_tags
    db.map fun r =>
      if r.id = observation_id then
        { r with
          text := new_text
          embedding := embedding
          history := history
          source_memory_ids := source_ids
          proof_count := source_ids.length
          tags := merged_tags
          occurred_start := leastCoalesce r.occurred_start source_occurred_start
          occurred_end := greatestCoalesce r.occurred_end source_occurred_end
          mentioned_at := greatestCoalesce r.mentioned_at source_mentioned_at }
      else r

/-- Embedding of `_execute_delete_action` (consolidator.py lines 717–728):
`DELETE FROM memory_units WHERE id = $1 AND bank_id = $2 AND fact_type =
'observation'`. -/
def _execute_delete_action (db : List MemoryUnitRow) (bank_id : String)
    (observation_id : String) : List MemoryUnitRow :=
  db.filter fun r =>
    ¬(r.id = observation_id ∧ r.bank_id = bank_id ∧ r.fact_type = "observation")

/-- Embedding of `_execute_create_action` (consolidator.py lines 682–714): a
thin wrapper that creates the observation with the source facts' tags. -/
def _execute_create_action (db : List MemoryUnitRow) (bank_id : String)
    (source_memory_ids : List String) (text : String)
    (source_fact_tags : List String)
    (event_date occurred_start occurred_end mentioned_at : Option Int)
    (now : Int) (newId : String) (embedding : Option (List ℚ)) :
    List MemoryUnitRow :=
  (_create_observation_directly db bank_id source_memory_ids text
    source_fact_tags event_date occurred_start occurred_end mentioned_at
    now newId embedding).1

/-- A create action parsed from the consolidation LLM response. -/
structure CreateAction where
  text : String
  source_fact_ids : List String
  deriving Repr, DecidableEq

/-- An update action parsed from the consolidation LLM response. -/
structure UpdateAction where
  text : String
  observation_id : String
  source_fact_ids : List String
  deriving Repr, DecidableEq

/-- A delete action parsed from the consolidation LLM response. -/
structure DeleteAction where
  observation_id : String
  deriving Repr, DecidableEq

/-- Embedding of `_BatchLLMResult` restricted to its action lists (the
`obs_count` / `prompt_chars` fields are logging-only and are omitted). -/
structure BatchLLMResult where
  creates : List CreateAction
  updates : List UpdateAction
  deletes : List DeleteAction
  deriving Repr, DecidableEq

/-- The list comprehension `[mem_by_id[fid] for fid in action.source_fact_ids
if fid in mem_by_id]` of `_process_memory_batch`: resolve cited fact ids
against the batch, dropping unknown ids.  (`mem_by_id` maps each batch
memory's id to the memory; batch ids are database primary keys, hence
distinct, so first-match lookup is the dict lookup.) -/
def resolveSourceMems (memories : List Memory) (ids : List String) : List Memory :=
  ids.filterMap fun fid => memories.find? fun m => m.id = fid

/-- The `creates` loop of `_process_memory_batch` (consolidator.py lines
518–536): each create resolves its source facts, is skipped when none
resolve, and otherwise inserts an observation tagged with the batch's
`fact_tags` and with temporal bounds aggregated over the resolved source
facts.  `newIds k` is the UUID generated for the `k`-th create of the batch
and `embOf` the embedding service. -/
def processCreates (db : List MemoryUnitRow) (bank_id : String)
    (memories : List Memory) (fact_tags : List String)
    (creates : List CreateAction) (now : Int) (newIds : Nat → String)
    (embOf : String → Option (List ℚ)) : List MemoryUnitRow :=
  (creates.enum).foldl
    (fun acc kc =>
      let source_mems := resolveSourceMems memories kc.2.source_fact_ids
      if source_mems.isEmpty then acc
      else
        _execute_create_action acc bank_id (source_mems.map (·.id)) kc.2.text
          fact_tags
          (_min_date (source_mems.map (·.event_date)))
          (_min_date (source_mems.map (·.occurred_start)))
          (_max_date (source_mems.map (·.occurred_end)))
          (_max_date (source_mems.map (·.mentioned_at)))
          now (newIds kc.1) (embOf kc.2.text))
    db

/-- The `updates` loop of `_process_memory_batch` (consolidator.py lines
538–564): each update resolves its source facts, is skipped when none
resolve, is rejected when the cited `observation_id` is in no resolved source
fact's per-fact recall set (`per_fact_obs_ids`), and otherwise executes.
`perFactObsIds` models the dict `per_fact_obs_ids` with lookup default `∅`. -/
def processUpdates (db : List MemoryUnitRow) (memories : List Memory)
    (union_observations : List MemoryFact)
    (perFactObsIds : String → List String) (fact_tags : List String)
    (updates : List UpdateAction) (now : Int)
    (embOf : String → Option (List ℚ)) : List MemoryUnitRow :=
  updates.foldl
    (fun acc u =>
      let source_mems := resolveSourceMems memories u.source_fact_ids
      if source_mems.isEmpty then acc
      else if ¬ source_mems.any (fun m => (perFactObsIds m.id).contains u.observation_id) then acc
      else
        _execute_update_action acc (source_mems.map (·.id)) u.observation_id
          u.text union_observations fact_tags
          (_min_date (source_mems.map (·.occurred_start)))
          (_max_date (source_mems.map (·.occurred_end)))
          (_max_date (source_mems.map (·.mentioned_at)))
          now (embOf u.text))
    db

/-- The `deletes` loop of `_process_memory_batch` (consolidator.py lines
566–573): a delete is rejected unless the cited observation is in the unioned
recall, and otherwise executes the guarded SQL delete. -/
def processDeletes (db : List MemoryUnitRow) (bank_id : String)
    (union_observations : List MemoryFact) (deletes : List DeleteAction) :
    List MemoryUnitRow :=
  deletes.foldl
    (fun acc d =>
      if ¬ union_observations.any (fun obs => obs.id = d.observation_id) then acc
      else _execute_delete_action acc bank_id d.observation_id)
    db

/-- Step 4 of `_process_memory_batch` (consolidator.py lines 508–573): the
serial action-execution phase, creates then updates then deletes, with
`fact_tags` taken from the first batch memory (`memories[0].get("tags") or []
if memories else []`). -/
def processMemoryBatchActions (db : List MemoryUnitRow) (bank_id : String)
    (memories : List Memory) (union_observations : List MemoryFact)
    (perFactObsIds : String → List String) (result : BatchLLMResult)
    (now : Int) (newIds : Nat → String) (embOf : String → Option (List ℚ)) :
    List MemoryUnitRow :=
  let fact_tags :=
    match memories with
    | [] => []
    | m :: _ => m.tags
  processDeletes
    (processUpdates
      (processCreates db bank_id memories fact_tags result.creates now newIds embOf)
      memories union_observations perFactObsIds fact_tags result.updates now embOf)
    bank_id union_observations result.deletes

/-! ## Consolidation engine: LLM retry and the consolidated-at mark -/

/-- The parsed `_ConsolidationBatchResponse` of a successful LLM call. -/
structure ConsolidationBatchResponse where
  creates : List CreateAction
  updates : List UpdateAction
  deletes : List DeleteAction
  deriving Repr, DecidableEq

/-- The `for attempt in range(1, max_attempts + 1)` retry loop: try each
attempt in order, returning the first successful parsed response; `none`
models every attempt raising. -/
def attemptCall (llm : Nat → Option ConsolidationBatchResponse) :
    List Nat → Option ConsolidationBatchResponse
  | [] => none
  | a :: rest =>
    match llm a with
    | some r => some r
    | none => attemptCall llm rest

/-- Embedding of `_consolidate_batch_with_llm` (consolidator.py lines
856–912): up to `max_attempts = 3` attempts; a success returns the response's
action lists; after three failures the function returns an empty
`_BatchLLMResult` (the batch is skipped). -/
def _consolidate_batch_with_llm (llm : Nat → Option ConsolidationBatchResponse) :
    BatchLLMResult :=
  match attemptCall llm [1, 2, 3] with
  | some r => { creates := r.creates, updates := r.updates, deletes := r.deletes }
  | none => { creates := [], updates := [], deletes := [] }

/-- The `executemany` statement of `run_consolidation_job` (consolidator.py
lines 251–254): `UPDATE memory_units SET consolidated_at = NOW() WHERE id =
$1`, run for every memory of the LLM batch. -/
def markConsolidated (db : List MemoryUnitRow) (ids : List String) (now : Int) :
    List MemoryUnitRow :=
  db.map fun r =>
    if ids.contains r.id then { r with consolidated_at := some now } else r

/-- The body of the per-LLM-batch loop of `run_consolidation_job`
(consolidator.py lines 241–254): call `_process_memory_batch` (whose LLM call
is `_consolidate_batch_with_llm`, and whose recall phase is summarised by the
`union_observations` / `perFactObsIds` inputs it produces), then
unconditionally set `consolidated_at = NOW()` for every memory of the batch. -/
def runConsolidationLLMBatch (db : List MemoryUnitRow) (bank_id : String)
    (memories : List Memory) (union_observations : List MemoryFact)
    (perFactObsIds : String → List String)
    (llm : Nat → Option ConsolidationBatchResponse) (now : Int)
    (newIds : Nat → String) (embOf : String → Option (List ℚ)) :
    List MemoryUnitRow :=
  let result := _consolidate_batch_with_llm llm
  let db1 := processMemoryBatchActions db bank_id memories union_observations
    perFactObsIds result now newIds embOf
  markConsolidated db1 (memories.map (·.id)) now

/-! ## Consolidation engine: grouping by exact tag set (batching protocol) -/

/-- Lexicographic code-point comparison of character lists: the comparison
Python's `sorted` uses on strings. -/
def charListLe : List Char → List Char → Bool
  | [], _ => true
  | _ :: _, [] => false
  | a :: as, b :: bs =>
    if a < b then true
    else if b < a then false
    else charListLe as bs

/-- String comparison by code points, as used by Python's `sorted`. -/
def strLe (a b : String) : Bool :=
  charListLe a.data b.data

/-- Insert a string into a sorted list (auxiliary to `sortedStrings`). -/
def insertSorted (x : String) : List String → List String
  | [] => [x]
  | y :: ys => if strLe x y then x :: y :: ys else y :: insertSorted x ys

/-- Python's `sorted` on a list of strings (insertion sort; on strings any
correct sort produces the identical output list, since equal elements are
indistinguishable). -/
def sortedStrings (l : List String) : List String :=
  l.foldr insertSorted []

/-- The group key `tuple(sorted(m.get("tags") or []))` of
`run_consolidation_job` (consolidator.py line 216). -/
def tagKey (m : Memory) : List String :=
  sortedStrings m.tags

/-- One step of `tag_groups.setdefault(tag_key, []).append(dict(m))` on an
insertion-ordered association list (the model of the Python dict). -/
def addToGroups (groups : List (List String × List Memory)) (key : List String)
    (m : Memory) : List (List String × List Memory) :=
  match groups with
  | [] => [(key, [m])]
  | (k, g) :: rest =>
    if k = key then (k, g ++ [m]) :: rest
    else (k, g) :: addToGroups rest key m

/-- The tag-grouping loop of `run_consolidation_job` (consolidator.py lines
212–217): group the fetched memories by exact sorted tag tuple, preserving
insertion order. -/
def tagGroups (memories : List Memory) : List (List String × List Memory) :=
  memories.foldl (fun gs m => addToGroups gs (tagKey m) m) []

/-- Fuel-driven chunking: `group[i : i + size]` slices for `i = 0, size,
2·size, …`.  With `size ≥ 1` (the only way it is invoked, mirroring
`llm_batch_size = max(1, …)`) a fuel of `l.length` always suffices. -/
def chunkListGo (size : Nat) : Nat → List Memory → List (List Memory)
  | 0, _ => []
  | _ + 1, [] => []
  | fuel + 1, x :: xs =>
    (x :: xs).take size :: chunkListGo size fuel ((x :: xs).drop size)

/-- The slicing loop `for i in range(0, len(group), llm_batch_size)` of
`run_consolidation_job` (consolidator.py lines 221–223). -/
def chunkList (size : Nat) (l : List Memory) : List (List Memory) :=
  chunkListGo size l.length l

/-- The LLM batches built by `run_consolidation_job` (consolidator.py lines
130 and 219–223): `llm_batch_size = max(1, config.consolidation_llm_batch_size)`,
then every tag group is cut into slices of that size, in group order. -/
def llmBatches (memories : List Memory) (configLLMBatchSize : Nat) :
    List (List Memory) :=
  ((tagGroups memories).map fun g => chunkList (max 1 configLLMBatchSize) g.2).flatten

/-! ## Retain pipeline: within-batch deduplication -/

/-- `np.dot` on two vectors of equal length (zipped pairwise product sum). -/
def dotList (a b : List ℚ) : ℚ :=
  ((a.zip b).map fun p => p.1 * p.2).sum

/-- The module constant `WITHIN_BATCH_SIMILARITY_THRESHOLD = 0.92`
(deduplication.py line 20). -/
def WITHIN_BATCH_SIMILARITY_THRESHOLD : ℚ :=
  92 / 100

/-- The loop of `_check_within_batch_duplicates` (deduplication.py lines
51–74) over the facts paired with their DB-duplicate flags, carrying the
embeddings of the facts approved so far.  A fact already flagged is skipped
(and not approved); otherwise it is marked as duplicate exactly when the
maximum dot product against the approved embeddings strictly exceeds the
threshold, and approved (appended to the approved list) otherwise. -/
def wbGo (θ : ℚ) : List (ProcessedFact × Bool) → List (List ℚ) → List Bool
  | [], _ => []
  | (f, dbFlag) :: rest, approved =>
    if dbFlag then true :: wbGo θ rest approved
    else
      match (approved.map fun e => dotList e f.embedding).max? with
      | some maxSim =>
        if θ < maxSim then true :: wbGo θ rest approved
        else false :: wbGo θ rest (approved ++ [f.embedding])
      | none => false :: wbGo θ rest (approved ++ [f.embedding])

/-- Embedding of `_check_within_batch_duplicates` (deduplication.py lines
23–80): batches of length ≤ 1 are returned unchanged; otherwise the flags are
recomputed by `wbGo` starting from an empty approved list. -/
def _check_within_batch_duplicates (facts : List ProcessedFact)
    (is_duplicate_flags : List Bool)
    (similarity_threshold : ℚ := WITHIN_BATCH_SIMILARITY_THRESHOLD) : List Bool :=
  if facts.length ≤ 1 then is_duplicate_flags
  else wbGo similarity_threshold (facts.zip is_duplicate_flags) []

/-! ## Diversity selection (`cluster_and_select`) -/

/-- A default retrieval result, used only as the out-of-range fallback of
positional lookups in the clustering model. -/
instance : Inhabited RetrievalResult :=
  ⟨{ text := ""
     fact_type := ""
     embedding := none
     occurred_start := none
     occurred_end := none
     mentioned_at := none
     event_date := none }⟩

/-- The filter `valid = [(i, c) for i, c in enumerate(candidates) if
c.embedding is not None]` (diversity.py line 87), keeping the candidates in
order. -/
def validCandidates (candidates : List RetrievalResult) : List RetrievalResult :=
  candidates.filter fun c => c.embedding.isSome

/-- Row `i` of the (parsed, L2-normalised) embedding matrix of the valid
candidates.  The float parsing/normalisation of diversity.py lines 95–103 is
abstracted: the model reads the normalised vector off the candidate. -/
def embRow (valid : List RetrievalResult) (i : Nat) : List ℚ :=
  ((valid.getD i default).embedding).getD []

/-- Entry `(i, j)` of `sim_matrix = emb_matrix @ emb_matrix.T`
(diversity.py line 106). -/
def simMatrix (valid : List RetrievalResult) (i j : Nat) : ℚ :=
  dotList (embRow valid i) (embRow valid j)

/-- Entry `(i, j)` of `adjacency = sim_matrix >= similarity_threshold`
(diversity.py line 107). -/
def adjacencyMatrix (valid : List RetrievalResult) (τ : ℚ) (i j : Nat) : Bool :=
  decide (τ ≤ simMatrix valid i j)

/-- Component `i` of `query_sims = emb_matrix @ q_vec` (diversity.py line
114); `q` is the query embedding after its normalisation step. -/
def querySims (valid : List RetrievalResult) (q : List ℚ) (i : Nat) : ℚ :=
  dotList (embRow valid i) q

/-- Fact-type bonus (diversity.py line 132):
`0.3 if ft == "observation" else (0.2 if ft == "experience" else 0.0)`. -/
def typeBonus (ft : String) : ℚ :=
  if ft = "observation" then 3 / 10
  else if ft = "experience" then 2 / 10
  else 0

/-- Recency bonus (diversity.py lines 138–143): with a best date `dt`,
`days_ago = max(0, (now - dt)/86400)` and
`recency = max(0.05, 1 - days_ago/365)`; without one, `0.05`. -/
def recencyScore (now : Int) (r : RetrievalResult) : ℚ :=
  match bestDate r with
  | some dt =>
    let days_ago : ℚ := max 0 (((now - dt : Int) : ℚ) / 86400)
    max (5 / 100) (1 - days_ago / 365)
  | none => 5 / 100

/-- The composed selection score (diversity.py line 145):
`q_sim + type_bonus + length_bonus + recency`.  The text-length bonus
`min(0.1, log1p(len(text))/70)` is transcendental and is abstracted as the
parameter `lengthBonus`, applied to the candidate's text length. -/
def candidateScore (now : Int) (lengthBonus : Nat → ℚ) (q_sim : ℚ)
    (r : RetrievalResult) : ℚ :=
  q_sim + typeBonus r.fact_type + lengthBonus r.text.length + recencyScore now r

/-- The unvisited-neighbour scan of the BFS inner loop (diversity.py lines
58–61): the indices `j < n` that are unvisited and adjacent to `node`, in
increasing order. -/
def bfsNbrs (adj : Nat → Nat → Bool) (n : Nat) (visited : Finset Nat)
    (node : Nat) : List Nat :=
  (List.range n).filter fun j => decide (j ∉ visited) && adj node j

/-- The BFS queue loop of `_connected_components` (diversity.py lines 55–61),
made structurally recursive on a fuel: pop the head node into the component,
mark and enqueue its unvisited neighbours.  A fuel of at least
`(range n \ visited).card + queue.length` (which `componentsGo` supplies via
`n + 1`)
makes the fuel-exhaustion branch unreachable. -/
def bfsAux (adj : Nat → Nat → Bool) (n : Nat) :
    Nat → Finset Nat → List Nat → List Nat → List Nat × Finset Nat
  | 0, visited, _, comp => (comp, visited)
  | _ + 1, visited, [], comp => (comp, visited)
  | fuel + 1, visited, node :: rest, comp =>
    let nbrs := bfsNbrs adj n visited node
    bfsAux adj n fuel (visited ∪ nbrs.toFinset) (rest ++ nbrs) (comp ++ [node])

/-- The outer loop of `_connected_components` (diversity.py lines 49–62):
scan the start indices in order, skip visited ones, and run one BFS per
remaining start, threading the visited set. -/
def componentsGo (adj : Nat → Nat → Bool) (n : Nat) :
    List Nat → Finset Nat → List (List Nat)
  | [], _ => []
  | start :: rest, visited =>
    if start ∈ visited then componentsGo adj n rest visited
    else
      let p := bfsAux adj n (n + 1) (insert start visited) [start] []
      p.1 :: componentsGo adj n rest p.2

/-- Embedding of `_connected_components` (diversity.py lines 44–63) on the
boolean adjacency matrix of an `n`-node graph. -/
def _connected_components (adj : Nat → Nat → Bool) (n : Nat) : List (List Nat) :=
  componentsGo adj n (List.range n) ∅

/-- A selected representative (`ClusterRepresentative`, diversity.py lines
24–31), with the float query similarity as `ℚ`. -/
structure ClusterRepresentative where
  result : RetrievalResult
  cluster_id : Nat
  cluster_size : Nat
  query_similarity : ℚ
  deriving Repr, DecidableEq

/-- A default representative, used only as the out-of-range fallback of
positional lookups in the clustering correctness statement. -/
instance : Inhabited ClusterRepresentative :=
  ⟨{ result := default
     cluster_id := 0
     cluster_size := 0
     query_similarity := 0 }⟩

/-- The best-representative scan of a component (diversity.py lines 123–149):
`best_score` starts at `-inf` and is replaced on strict improvement, so the
fold from `none` (the first member always wins against `-inf`) returns the
earliest member attaining the maximum score, paired with its score. -/
def selectBest (score : Nat → ℚ) (component : List Nat) : Option (Nat × ℚ) :=
  component.foldl
    (fun best idx =>
      match best with
      | none => some (idx, score idx)
      | some (bi, bs) => if bs < score idx then some (idx, score idx) else some (bi, bs))
    none

/-- The selected index of a component (`best_idx`); `0` is an arbitrary
fallback for an empty component, which never occurs (every BFS component
contains its start; the source would index with `-1` there). -/
def selectBestIdx (score : Nat → ℚ) (component : List Nat) : Nat :=
  ((selectBest score component).map Prod.fst).getD 0

/-- The connected components computed by `cluster_and_select` over the valid
candidates at threshold `τ` (diversity.py lines 106–117). -/
def clusterComponents (candidates : List RetrievalResult) (τ : ℚ) :
    List (List Nat) :=
  let valid := validCandidates candidates
  _connected_components (adjacencyMatrix valid τ) valid.length

/-- The per-cluster representative list of `cluster_and_select` before the
final sort (diversity.py lines 119–158), one entry per connected component in
component order. -/
def clusterRepresentatives (candidates : List RetrievalResult)
    (query_embedding : List ℚ) (τ : ℚ) (now : Int) (lengthBonus : Nat → ℚ) :
    List ClusterRepresentative :=
  let valid := validCandidates candidates
  let score := fun idx =>
    candidateScore now lengthBonus (querySims valid query_embedding idx)
      (valid.getD idx default)
  (clusterComponents candidates τ).enum.map fun p =>
    let best_idx := selectBestIdx score p.2
    { result := valid.getD best_idx default
      cluster_id := p.1
      cluster_size := p.2.length
      query_similarity := querySims valid query_embedding best_idx }

/-- Embedding of `cluster_and_select` (diversity.py lines 66–162): empty
input and no-valid-candidate guards, then one representative per connected
component, sorted by query similarity descending (`reverse=True`, stable). -/
def cluster_and_select (candidates : List RetrievalResult)
    (query_embedding : List ℚ) (τ : ℚ) (now : Int) (lengthBonus : Nat → ℚ) :
    List ClusterRepresentative :=
  if candidates.isEmpty then []
  else if (validCandidates candidates).isEmpty then []
  else
    (clusterRepresentatives candidates query_embedding τ now lengthBonus).mergeSort
      fun a b => decide (b.query_similarity ≤ a.query_similarity)

/-- The undirected step relation of the candidate graph: indices below `n`
joined by the boolean adjacency. -/
def stepAdj (adj : Nat → Nat → Bool) (n : Nat) (i j : Nat) : Prop :=
  i < n ∧ j < n ∧ adj i j = true

/-- Reachability (reflexive-transitive closure of `stepAdj`): the
connectivity relation whose classes are the graph's connected components. -/
def ReachAdj (adj : Nat → Nat → Bool) (n : Nat) : Nat → Nat → Prop :=
  Relation.ReflTransGen (stepAdj adj n)

/-! ## Theorems -/

/-- C1: the claim (and the spec's temporal priority rule, also documented in
the repository's `test_temporal_scoring_priority.py` as the intended, fixed
behaviour) says the best-date function returns `mentioned_at` whenever it is
non-null, consulting `occurred_*` only when `mentioned_at` is null.  The code
does the opposite: on a record with `mentioned_at = 100` and `occurred_start
= 200`, `_best_date` returns `occurred_start` (200), not `mentioned_at`
(100), diverging from the spec-modelled priority; the duplicate-window anchor
of `check_duplicates_batch` likewise returns `occurred_start` even though
`mentioned_at` is non-null. -/
theorem c1_best_date_prefers_occurred_start :
    bestDate c1Result = some 200 ∧
    c1Result.mentioned_at = some 100 ∧
    bestDate c1Result ≠ c1Result.mentioned_at ∧
    bestDateSpec c1Result = some 100 ∧
    bestDate c1Result ≠ bestDateSpec c1Result ∧
    dedupAnchorDate c1Fact 0 = 200 ∧
    c1Fact.mentioned_at = some 100 ∧
    some (dedupAnchorDate c1Fact 0) ≠ c1Fact.mentioned_at := by
  refine ⟨rfl, rfl, ?_, rfl, ?_, rfl, rfl, ?_⟩ <;> decide

/-- C3: the claim (and the spec, and the module's own docstring "proof_count:
Number of supporting memories") says an observation created from `k` source
facts is inserted with `proof_count = k`.  The INSERT of
`_create_observation_directly` writes the literal `1` instead: created from
the two source memories `m1, m2`, the row carries `proof_count = 1 ≠ 2`.
(The update path does keep `proof_count = len(source_memory_ids)`.) -/
theorem c3_create_inserts_proof_count_one :
    ((_create_observation_directly [] "bank" ["m1", "m2"] "obs" [] none none
        none none 0 "obs-1" none).2).proof_count = 1 ∧
    ((_create_observation_directly [] "bank" ["m1", "m2"] "obs" [] none none
        none none 0 "obs-1" none).2).source_memory_ids.length = 2 ∧
    ((_create_observation_directly [] "bank" ["m1", "m2"] "obs" [] none none
        none none 0 "obs-1" none).2).proof_count ≠
      ((_create_observation_directly [] "bank" ["m1", "m2"] "obs" [] none none
        none none 0 "obs-1" none).2).source_memory_ids.length := by
  exact ⟨rfl, rfl, by decide⟩

/-- C10: every observation row inserted by the consolidation create path has
non-null `event_date`, `occurred_start`, `occurred_end` and `mentioned_at`:
each is the aggregated source-fact value when that is non-null and the
insertion-time `now` otherwise. -/
theorem c10_created_observation_dates_non_null (db : List MemoryUnitRow)
    (bank_id : String) (source_memory_ids : List String) (text : String)
    (tags : List String) (event_date occurred_start occurred_end mentioned_at : Option Int)
    (now : Int) (newId : String) (embedding : Option (List ℚ)) :
    (((_create_observation_directly db bank_id source_memory_ids text tags
        event_date occurred_start occurred_end mentioned_at now newId
        embedding).2).event_date.isSome ∧
      ((_create_observation_directly db bank_id source_memory_ids text tags
        event_date occurred_start occurred_end mentioned_at now newId
        embedding).2).occurred_start.isSome ∧
      ((_create_observation_directly db bank_id source_memory_ids text tags
        event_date occurred_start occurred_end mentioned_at now newId
        embedding).2).occurred_end.isSome ∧
      ((_create_observation_directly db bank_id source_memory_ids text tags
        event_date occurred_start occurred_end mentioned_at now newId
        embedding).2).mentioned_at.isSome) ∧
    ((_create_observation_directly db bank_id source_memory_ids text tags
        event_date occurred_start occurred_end mentioned_at now newId
        embedding).2).event_date = some (event_date.getD now) ∧
    ((_create_observation_directly db bank_id source_memory_ids text tags
        event_date occurred_start occurred_end mentioned_at now newId
        embedding).2).occurred_start = some (occurred_start.getD now) ∧
    ((_create_observation_directly db bank_id source_memory_ids text tags
        event_date occurred_start occurred_end mentioned_at now newId
        embedding).2).occurred_end = some (occurred_end.getD now) ∧
    ((_create_observation_directly db bank_id source_memory_ids text tags
        event_date occurred_start occurred_end mentioned_at now newId
        embedding).2).mentioned_at = some (mentioned_at.getD now) ∧
    (event_date = none →
      ((_create_observation_directly db bank_id source_memory_ids text tags
        event_date occurred_start occurred_end mentioned_at now newId
        embedding).2).event_date = some now) ∧
    (mentioned_at = none →
      ((_create_observation_directly db bank_id source_memory_ids text tags
        event_date occurred_start occurred_end mentioned_at now newId
        embedding).2).mentioned_at = some now) := by
  refine ⟨⟨rfl, rfl, rfl, rfl⟩, rfl, rfl, rfl, rfl, ?_, ?_⟩
  · intro h; subst h; rfl
  · intro h; subst h; rfl

/-- Closed witness for `c10_created_observation_dates_non_null`: a concrete
create with null aggregates yields rows stamped with `now = 7`, and with a
provided `occurred_start = 3` that value is kept. -/
theorem c10_created_observation_dates_non_null_witness :
    ((_create_observation_directly [] "b" ["m"] "t" [] none (some 3) none none
        7 "id" none).2).event_date = some 7 ∧
    ((_create_observation_directly [] "b" ["m"] "t" [] none (some 3) none none
        7 "id" none).2).occurred_start = some 3 ∧
    ((_create_observation_directly [] "b" ["m"] "t" [] none (some 3) none none
        7 "id" none).2).mentioned_at = some 7 := by
  refine ⟨?_, ?_, ?_⟩
  · exact (c10_created_observation_dates_non_null [] "b" ["m"] "t" [] none
      (some 3) none none 7 "id" none).2.2.2.2.2.1 rfl
  · exact (c10_created_observation_dates_non_null [] "b" ["m"] "t" [] none
      (some 3) none none 7 "id" none).2.2.1
  · exact (c10_created_observation_dates_non_null [] "b" ["m"] "t" [] none
      (some 3) none none 7 "id" none).2.2.2.2.2.2 rfl

/-- A row that is not an observation of the consolidating bank survives one
guarded SQL delete. -/
theorem mem_execute_delete_of_ne {db : List MemoryUnitRow} {bank_id observation_id : String}
    {r : MemoryUnitRow} (hr : r ∈ db)
    (hne : ¬(r.fact_type = "observation" ∧ r.bank_id = bank_id)) :
    r ∈ _execute_delete_action db bank_id observation_id := by
  simp only [_execute_delete_action, List.mem_filter, decide_eq_true_eq]
  exact ⟨hr, fun h => hne ⟨h.2.2, h.2.1⟩⟩

/-- A row removed by one guarded SQL delete is the cited observation row of
the consolidating bank. -/
theorem execute_delete_removed {db : List MemoryUnitRow} {bank_id observation_id : String}
    {r : MemoryUnitRow} (hr : r ∈ db)
    (hn : r ∉ _execute_delete_action db bank_id observation_id) :
    r.id = observation_id ∧ r.bank_id = bank_id ∧ r.fact_type = "observation" := by
  simp only [_execute_delete_action, List.mem_filter, decide_eq_true_eq] at hn
  by_contra hne
  exact hn ⟨hr, fun h => hne h⟩

/-- A row that is not an observation of the consolidating bank survives the
whole deletes loop. -/
theorem mem_processDeletes_of_ne {bank_id : String}
    {union_observations : List MemoryFact} {r : MemoryUnitRow}
    (deletes : List DeleteAction) (db : List MemoryUnitRow) (hr : r ∈ db)
    (hne : ¬(r.fact_type = "observation" ∧ r.bank_id = bank_id)) :
    r ∈ processDeletes db bank_id union_observations deletes := by
  induction deletes generalizing db with
  | nil => exact hr
  | cons d rest ih =>
    simp only [processDeletes, List.foldl_cons] at *
    by_cases hg : ¬ union_observations.any (fun obs => obs.id = d.observation_id)
    · simp only [hg, if_true]
      exact ih db hr
    · simp only [hg, if_false]
      exact ih _ (mem_execute_delete_of_ne hr hne)

/-- A row removed somewhere in the deletes loop is an observation row of the
consolidating bank. -/
theorem processDeletes_removed {bank_id : String}
    {union_observations : List MemoryFact} {r : MemoryUnitRow}
    (deletes : List DeleteAction) (db : List MemoryUnitRow) (hr : r ∈ db)
    (hn : r ∉ processDeletes db bank_id union_observations deletes) :
    r.fact_type = "observation" ∧ r.bank_id = bank_id := by
  induction deletes generalizing db with
  | nil => exact absurd hr hn
  | cons d rest ih =>
    simp only [processDeletes, List.foldl_cons] at *
    by_cases hg : ¬ union_observations.any (fun obs => obs.id = d.observation_id)
    · simp only [hg, if_true] at hn
      exact ih db hr hn
    · simp only [hg, if_false] at hn
      by_cases hm : r ∈ _execute_delete_action db bank_id d.observation_id
      · exact ih _ hm hn
      · have h := execute_delete_removed hr hm
        exact ⟨h.2.2, h.2.1⟩

/-- C9: a consolidation delete action can only remove a row whose `fact_type`
is `'observation'` and whose `bank_id` is the consolidating bank: any row
removed by the deletes loop is such a row, and any raw memory unit
(`fact_type ≠ 'observation'`) survives the loop whatever `observation_id`s
the LLM returned. -/
theorem c9_delete_never_removes_raw_memories
    (db : List MemoryUnitRow) (bank_id : String)
    (union_observations : List MemoryFact) (deletes : List DeleteAction)
    (r : MemoryUnitRow) (hr : r ∈ db) :
    (r ∉ processDeletes db bank_id union_observations deletes →
      r.fact_type = "observation" ∧ r.bank_id = bank_id) ∧
    (r.fact_type ≠ "observation" →
      r ∈ processDeletes db bank_id union_observations deletes) := by
  constructor
  · exact fun hn => processDeletes_removed deletes db hr hn
  · exact fun hft => mem_processDeletes_of_ne deletes db hr fun h => hft h.1

/-- The experience row used in the delete-safety witness. -/
def c9Row : MemoryUnitRow :=
  { id := "x"
    bank_id := "b"
    text := "Bob swims"
    fact_type := "experience"
    embedding := none
    tags := []
    source_memory_ids := []
    proof_count := 1
    history := []
    event_date := some 0
    occurred_start := none
    occurred_end := none
    mentioned_at := none
    consolidated_at := none }

/-- Closed witness for `c9_delete_never_removes_raw_memories`: an experience
row survives a delete action that cites its own id, even with the cited id
present in the unioned recall. -/
theorem c9_delete_never_removes_raw_memories_witness :
    c9Row ∈ processDeletes [c9Row] "b" [⟨"x", "t", [], []⟩] [⟨"x"⟩] :=
  (c9_delete_never_removes_raw_memories [c9Row] "b" [⟨"x", "t", [], []⟩]
    [⟨"x"⟩] c9Row (by decide)).2 (by decide)

/-- A row of `markConsolidated` whose id is in the batch carries the new
consolidation stamp. -/
theorem consolidated_at_of_mem_markConsolidated {db : List MemoryUnitRow}
    {ids : List String} {now : Int} {r : MemoryUnitRow}
    (hr : r ∈ markConsolidated db ids now) (hid : r.id ∈ ids) :
    r.consolidated_at = some now := by
  simp only [markConsolidated, List.mem_map] at hr
  obtain ⟨orig, _, horig⟩ := hr
  by_cases h : ids.contains orig.id
  · rw [if_pos h] at horig
    subst horig
    rfl
  · rw [if_neg h] at horig
    subst horig
    exact absurd (List.elem_iff.mpr hid) h

/-- The unconsolidated memory used in the failed-LLM-batch counterexample. -/
def c2Memory : Memory :=
  { id := "m1"
    text := "Alice loves hiking"
    fact_type := "experience"
    occurred_start := none
    occurred_end := none
    event_date := none
    tags := []
    mentioned_at := none }

/-- The table row behind `c2Memory`, still unconsolidated. -/
def c2Row : MemoryUnitRow :=
  { id := "m1"
    bank_id := "b"
    text := "Alice loves hiking"
    fact_type := "experience"
    embedding := none
    tags := []
    source_memory_ids := []
    proof_count := 1
    history := []
    event_date := some 0
    occurred_start := none
    occurred_end := none
    mentioned_at := none
    consolidated_at := none }

/-- C2 counterexample: the claim says that when the batched consolidation LLM
call fails on all 3 attempts, every memory of the batch still has
`consolidated_at = NULL` after the run.  On a concrete one-memory batch with
an LLM that raises on every attempt, the retry wrapper does return the empty
result (the batch's actions are skipped), but the loop body then stamps
`consolidated_at = NOW()` (here `5`) on the memory anyway, so the claim's
NULL assertion is false. -/
theorem c2_counterexample_consolidated_at_set_on_failure :
    _consolidate_batch_with_llm (fun _ => none) =
      { creates := [], updates := [], deletes := [] } ∧
    runConsolidationLLMBatch [c2Row] "b" [c2Memory] [] (fun _ => [])
        (fun _ => none) 5 (fun _ => "") (fun _ => none) =
      [{ c2Row with consolidated_at := some 5 }] ∧
    ({ c2Row with consolidated_at := some 5 } : MemoryUnitRow).consolidated_at ≠
      none := by
  refine ⟨rfl, rfl, by decide⟩

/-- C2 amended: when the batched consolidation LLM call fails on all
attempts, the retry wrapper returns the empty action list, so the batch's
actions are skipped (no creates, updates or deletes touch the table), but the
loop body still sets `consolidated_at = now` for every memory in the batch —
the memories are *not* left unconsolidated for the next run. -/
theorem c2_failed_llm_batch_skipped_but_marked_consolidated
    (db : List MemoryUnitRow) (bank_id : String) (memories : List Memory)
    (union_observations : List MemoryFact)
    (perFactObsIds : String → List String)
    (llm : Nat → Option ConsolidationBatchResponse) (now : Int)
    (newIds : Nat → String) (embOf : String → Option (List ℚ))
    (hfail : ∀ a, llm a = none) :
    _consolidate_batch_with_llm llm =
      { creates := [], updates := [], deletes := [] } ∧
    runConsolidationLLMBatch db bank_id memories union_observations
        perFactObsIds llm now newIds embOf =
      markConsolidated db (memories.map (·.id)) now ∧
    ∀ r ∈ runConsolidationLLMBatch db bank_id memories union_observations
        perFactObsIds llm now newIds embOf,
      r.id ∈ memories.map (·.id) → r.consolidated_at = some now := by
  have hres : _consolidate_batch_with_llm llm =
      { creates := [], updates := [], deletes := [] } := by
    simp only [_consolidate_batch_with_llm, attemptCall, hfail]
  have hrun : runConsolidationLLMBatch db bank_id memories union_observations
      perFactObsIds llm now newIds embOf =
      markConsolidated db (memories.map (·.id)) now := by
    simp only [runConsolidationLLMBatch, hres]
    rfl
  refine ⟨hres, hrun, ?_⟩
  intro r hr hid
  rw [hrun] at hr
  exact consolidated_at_of_mem_markConsolidated hr hid

/-- Closed witness for `c2_failed_llm_batch_skipped_but_marked_consolidated`
at the concrete one-memory batch: the run leaves exactly the mark-consolidated
table. -/
theorem c2_failed_llm_batch_skipped_but_marked_consolidated_witness :
    runConsolidationLLMBatch [c2Row] "b" [c2Memory] [] (fun _ => [])
        (fun _ => none) 5 (fun _ => "") (fun _ => none) =
      markConsolidated [c2Row] ([c2Memory].map (·.id)) 5 :=
  (c2_failed_llm_batch_skipped_but_marked_consolidated [c2Row] "b" [c2Memory]
    [] (fun _ => []) (fun _ => none) 5 (fun _ => "") (fun _ => none)
    (fun _ => rfl)).2.1

/-- C4: an update action whose cited `observation_id` is in no resolved
source fact's per-fact recall set is rejected: the action leaves the table
exactly as it was (no row mutated) and the remaining actions of the batch
execute as if the rejected action were absent.  (The loop body is a total
function — no error propagates to the caller.) -/
theorem c4_cross_tag_update_rejected (db : List MemoryUnitRow)
    (memories : List Memory) (union_observations : List MemoryFact)
    (perFactObsIds : String → List String) (fact_tags : List String)
    (u : UpdateAction) (rest : List UpdateAction) (now : Int)
    (embOf : String → Option (List ℚ))
    (hreject : ∀ m ∈ resolveSourceMems memories u.source_fact_ids,
      u.observation_id ∉ perFactObsIds m.id) :
    processUpdates db memories union_observations perFactObsIds fact_tags
        (u :: rest) now embOf =
      processUpdates db memories union_observations perFactObsIds fact_tags
        rest now embOf := by
  simp only [processUpdates, List.foldl_cons]
  by_cases hempty : (resolveSourceMems memories u.source_fact_ids).isEmpty
  · rw [if_pos hempty]
  · rw [if_neg hempty]
    have hany : (resolveSourceMems memories u.source_fact_ids).any
        (fun m => (perFactObsIds m.id).contains u.observation_id) = false := by
      rw [List.any_eq_false]
      intro m hm
      exact fun hc => hreject m hm (List.elem_iff.mp hc)
    rw [if_pos]
    rw [hany]
    exact Bool.false_ne_true

/-- The batch memory used in the cross-tag-rejection witness. -/
def c4Memory : Memory :=
  { id := "m1"
    text := "Alice loves hiking"
    fact_type := "experience"
    occurred_start := none
    occurred_end := none
    event_date := none
    tags := ["alice"]
    mentioned_at := none }

/-- Closed witness for `c4_cross_tag_update_rejected`: an update citing an
observation outside the (empty) per-fact recall set of its only resolved
source fact is dropped, leaving the remaining (empty) update list's result. -/
theorem c4_cross_tag_update_rejected_witness :
    processUpdates [c9Row] [c4Memory] [⟨"obs-b", "t", ["bob"], []⟩]
        (fun _ => []) ["alice"] [⟨"new text", "obs-b", ["m1"]⟩] 5
        (fun _ => none) =
      processUpdates [c9Row] [c4Memory] [⟨"obs-b", "t", ["bob"], []⟩]
        (fun _ => []) ["alice"] [] 5 (fun _ => none) :=
  c4_cross_tag_update_rejected [c9Row] [c4Memory] [⟨"obs-b", "t", ["bob"], []⟩]
    (fun _ => []) ["alice"] ⟨"new text", "obs-b", ["m1"]⟩ [] 5 (fun _ => none)
    (by decide)

/-- Membership in an insertion step of the string sort. -/
theorem mem_insertSorted {x y : String} {l : List String} :
    x ∈ insertSorted y l ↔ x = y ∨ x ∈ l := by
  induction l with
  | nil => simp [insertSorted]
  | cons z zs ih =>
    simp only [insertSorted]
    split <;> simp only [List.mem_cons, ih] <;> tauto

/-- Sorting a tag list preserves membership. -/
theorem mem_sortedStrings {x : String} {l : List String} :
    x ∈ sortedStrings l ↔ x ∈ l := by
  induction l with
  | nil => simp [sortedStrings]
  | cons y ys ih =>
    simp only [sortedStrings, List.foldr_cons] at *
    rw [mem_insertSorted, ih, List.mem_cons]

/-- `addToGroups` preserves the grouping invariant: every member of every
group has the group's key. -/
theorem addToGroups_key {groups : List (List String × List Memory)}
    {key : List String} {m' : Memory}
    (hinv : ∀ p ∈ groups, ∀ x ∈ p.2, tagKey x = p.1) (hm : tagKey m' = key) :
    ∀ p ∈ addToGroups groups key m', ∀ x ∈ p.2, tagKey x = p.1 := by
  induction groups with
  | nil =>
    intro p hp x hx
    simp only [addToGroups, List.mem_singleton] at hp
    subst hp
    simp only [List.mem_singleton] at hx
    subst hx
    exact hm
  | cons g rest ih =>
    intro p hp x hx
    simp only [addToGroups] at hp
    by_cases hk : g.1 = key
    · rw [if_pos hk] at hp
      rcases List.mem_cons.mp hp with h | h
      · subst h
        simp only [List.mem_append, List.mem_singleton] at hx
        rcases hx with hx | hx
        · exact hinv g (List.mem_cons_self g rest) x hx
        · subst hx
          rw [hm, hk]
      · exact hinv p (List.mem_cons_of_mem g h) x hx
    · rw [if_neg hk] at hp
      rcases List.mem_cons.mp hp with h | h
      · subst h
        exact hinv g (List.mem_cons_self g rest) x hx
      · exact ih (fun q hq => hinv q (List.mem_cons_of_mem g hq)) p h x hx

/-- Every member of every tag group carries the group's key (the sorted form
of its own tags). -/
theorem tagGroups_key {memories : List Memory} :
    ∀ p ∈ tagGroups memories, ∀ x ∈ p.2, tagKey x = p.1 := by
  suffices h : ∀ (ms : List Memory) (gs : List (List String × List Memory)),
      (∀ p ∈ gs, ∀ x ∈ p.2, tagKey x = p.1) →
      ∀ p ∈ ms.foldl (fun acc m => addToGroups acc (tagKey m) m) gs,
        ∀ x ∈ p.2, tagKey x = p.1 by
    exact h memories [] (by intro p hp; simp at hp)
  intro ms
  induction ms with
  | nil => intro gs hinv; simpa using hinv
  | cons m rest ih =>
    intro gs hinv
    simp only [List.foldl_cons]
    exact ih _ (addToGroups_key hinv rfl)

/-- Every member of a chunk is a member of the chunked list. -/
theorem mem_of_mem_chunkListGo {size fuel : Nat} {l b : List Memory}
    (hb : b ∈ chunkListGo size fuel l) : ∀ x ∈ b, x ∈ l := by
  induction fuel generalizing l with
  | zero => simp [chunkListGo] at hb
  | succ fuel ih =>
    match l with
    | [] => simp [chunkListGo] at hb
    | y :: ys =>
      simp only [chunkListGo, List.mem_cons] at hb
      rcases hb with hb | hb
      · subst hb
        exact fun x hx => List.take_subset size (y :: ys) hx
      · exact fun x hx => List.drop_subset size (y :: ys) (ih hb x hx)

/-- C5: every LLM batch built by the consolidation batching protocol is
tag-homogeneous: any two memories in the same batch have the same sorted
canonical tag key, hence identical tag sets (two memories with different tag
sets never share an LLM call). -/
theorem c5_llm_batches_share_exact_tag_set (memories : List Memory)
    (configLLMBatchSize : Nat) (batch : List Memory)
    (hb : batch ∈ llmBatches memories configLLMBatchSize)
    (m1 : Memory) (h1 : m1 ∈ batch) (m2 : Memory) (h2 : m2 ∈ batch) :
    tagKey m1 = tagKey m2 ∧ ∀ t, (t ∈ m1.tags ↔ t ∈ m2.tags) := by
  simp only [llmBatches, List.mem_flatten, List.mem_map] at hb
  obtain ⟨chunks, ⟨g, hg, hgchunks⟩, hbatch⟩ := hb
  subst hgchunks
  have hm1 : m1 ∈ g.2 := mem_of_mem_chunkListGo hbatch m1 h1
  have hm2 : m2 ∈ g.2 := mem_of_mem_chunkListGo hbatch m2 h2
  have hk1 := tagGroups_key g hg m1 hm1
  have hk2 := tagGroups_key g hg m2 hm2
  have hkey : tagKey m1 = tagKey m2 := hk1.trans hk2.symm
  refine ⟨hkey, fun t => ?_⟩
  rw [← mem_sortedStrings (l := m1.tags), ← mem_sortedStrings (l := m2.tags)]
  rw [show sortedStrings m1.tags = tagKey m1 from rfl,
    show sortedStrings m2.tags = tagKey m2 from rfl, hkey]

/-- Second batch memory for the tag-homogeneity witness (same tags as
`c4Memory`, different id). -/
def c5Memory : Memory :=
  { id := "m3"
    text := "Alice hikes every weekend"
    fact_type := "world"
    occurred_start := none
    occurred_end := none
    event_date := none
    tags := ["alice"]
    mentioned_at := none }

/-- A memory with a different tag set, to exercise the grouping. -/
def c5MemoryOther : Memory :=
  { id := "m2"
    text := "Bob swims"
    fact_type := "world"
    occurred_start := none
    occurred_end := none
    event_date := none
    tags := ["bob"]
    mentioned_at := none }

/-- Closed witness for `c5_llm_batches_share_exact_tag_set`: in the batching
of `[c4Memory, c5MemoryOther, c5Memory]`, the first produced batch is
`[c4Memory, c5Memory]` (the two `alice` memories), and the theorem yields the
equal tag keys. -/
theorem c5_llm_batches_share_exact_tag_set_witness :
    [c4Memory, c5Memory] ∈ llmBatches [c4Memory, c5MemoryOther, c5Memory] 10 ∧
    tagKey c4Memory = tagKey c5Memory :=
  ⟨by decide,
    (c5_llm_batches_share_exact_tag_set [c4Memory, c5MemoryOther, c5Memory] 10
      [c4Memory, c5Memory] (by decide) c4Memory (by decide) c5Memory
      (by decide)).1⟩

/-- Membership in the Python set union of two tag lists. -/
theorem mem_tagSetUnion {t : String} {a b : List String} :
    t ∈ tagSetUnion a b ↔ t ∈ a ∨ t ∈ b := by
  simp [tagSetUnion, List.mem_dedup]

/-- Resolved source facts are members of the batch. -/
theorem resolveSourceMems_subset {memories : List Memory} {ids : List String}
    {m : Memory} (hm : m ∈ resolveSourceMems memories ids) : m ∈ memories := by
  simp only [resolveSourceMems, List.mem_filterMap] at hm
  obtain ⟨fid, _, hfind⟩ := hm
  exact List.mem_of_find?_eq_some hfind

/-- C6: observation tags cover their contributors.  (create) When every batch
memory's tags lie in the batch tag set `fact_tags` (the tag homogeneity that
the batching protocol guarantees), an observation created by the create path
carries `tags = fact_tags`, so the tags of every memory cited in its
`source_memory_ids` are contained in the observation's tags.  (update) If the
recalled snapshot `model` already satisfied the invariant for its recorded
sources (`tagsOf` giving each source memory's tags) and every newly
contributing memory's tags lie in the batch tag set, then the updated row —
whose tags become the union of the snapshot tags and the batch tags and whose
`source_memory_ids` become the snapshot's sources plus the contributors —
satisfies the invariant again; rows other than the cited observation are
untouched. -/
theorem c6_observation_tags_superset_of_sources (tagsOf : String → List String) :
    (∀ (db : List MemoryUnitRow) (bank_id : String) (memories : List Memory)
      (fact_tags : List String) (c : CreateAction) (now : Int) (newId : String)
      (emb : Option (List ℚ)),
      (∀ m ∈ memories, ∀ t ∈ m.tags, t ∈ fact_tags) →
      ∀ m ∈ memories,
        m.id ∈ ((_create_observation_directly db bank_id
          ((resolveSourceMems memories c.source_fact_ids).map (·.id)) c.text
          fact_tags
          (_min_date ((resolveSourceMems memories c.source_fact_ids).map (·.event_date)))
          (_min_date ((resolveSourceMems memories c.source_fact_ids).map (·.occurred_start)))
          (_max_date ((resolveSourceMems memories c.source_fact_ids).map (·.occurred_end)))
          (_max_date ((resolveSourceMems memories c.source_fact_ids).map (·.mentioned_at)))
          now newId emb).2).source_memory_ids →
        ∀ t ∈ m.tags,
          t ∈ ((_create_observation_directly db bank_id
            ((resolveSourceMems memories c.source_fact_ids).map (·.id)) c.text
            fact_tags
            (_min_date ((resolveSourceMems memories c.source_fact_ids).map (·.event_date)))
            (_min_date ((resolveSourceMems memories c.source_fact_ids).map (·.occurred_start)))
            (_max_date ((resolveSourceMems memories c.source_fact_ids).map (·.occurred_end)))
            (_max_date ((resolveSourceMems memories c.source_fact_ids).map (·.mentioned_at)))
            now newId emb).2).tags) ∧
    (∀ (db : List MemoryUnitRow) (source_memory_ids : List String)
      (observation_id new_text : String) (observations : List MemoryFact)
      (source_fact_tags : List String)
      (s_os s_oe s_ma : Option Int) (now : Int) (emb : Option (List ℚ))
      (model : MemoryFact) (r' : MemoryUnitRow),
      observations.find? (fun m => m.id = observation_id) = some model →
      (∀ sid ∈ model.source_fact_ids, ∀ t ∈ tagsOf sid, t ∈ model.tags) →
      (∀ sid ∈ source_memory_ids, ∀ t ∈ tagsOf sid, t ∈ source_fact_tags) →
      r' ∈ _execute_update_action db source_memory_ids observation_id new_text
        observations source_fact_tags s_os s_oe s_ma now emb →
      (r'.id = observation_id →
        ∀ sid ∈ r'.source_memory_ids, ∀ t ∈ tagsOf sid, t ∈ r'.tags) ∧
      (r'.id ≠ observation_id → r' ∈ db)) := by
  constructor
  · intro db bank_id memories fact_tags c now newId emb huni m hm _ t ht
    exact huni m hm t ht
  · intro db source_memory_ids observation_id new_text observations
      source_fact_tags s_os s_oe s_ma now emb model r' hfind hold hnew hr
    rw [_execute_update_action, hfind] at hr
    simp only [List.mem_map] at hr
    obtain ⟨r, hrdb, hrr⟩ := hr
    by_cases hrid : r.id = observation_id
    · rw [if_pos hrid] at hrr
      subst hrr
      constructor
      · intro _ sid hsid t ht
        simp only [List.mem_append] at hsid
        rw [mem_tagSetUnion]
        rcases hsid with hsid | hsid
        · exact Or.inl (hold sid hsid t ht)
        · exact Or.inr (hnew sid hsid t ht)
      · intro hne
        exact absurd hrid hne
    · rw [if_neg hrid] at hrr
      subst hrr
      exact ⟨fun hid => absurd hid hrid, fun _ => hrdb⟩

/-- Closed witness for `c6_observation_tags_superset_of_sources`: the create
part at the concrete one-memory `alice` batch puts the contributor's tag on
the created observation, and the update part keeps the snapshot tag `bob` and
the contributing batch tag `alice` on the updated row. -/
theorem c6_observation_tags_superset_of_sources_witness :
    "alice" ∈ ((_create_observation_directly [] "b"
      ((resolveSourceMems [c4Memory] ["m1"]).map (·.id)) "obs" ["alice"]
      (_min_date ((resolveSourceMems [c4Memory] ["m1"]).map (·.event_date)))
      (_min_date ((resolveSourceMems [c4Memory] ["m1"]).map (·.occurred_start)))
      (_max_date ((resolveSourceMems [c4Memory] ["m1"]).map (·.occurred_end)))
      (_max_date ((resolveSourceMems [c4Memory] ["m1"]).map (·.mentioned_at)))
      5 "obs-1" none).2).tags :=
  (c6_observation_tags_superset_of_sources (fun _ => ["alice"])).1 [] "b"
    [c4Memory] ["alice"] ⟨"obs", ["m1"]⟩ 5 "obs-1" none (by decide) c4Memory
    (by decide) (by decide) "alice" (by decide)

/-- Branch unfolding of `wbGo` on an already-flagged head. -/
theorem wbGo_cons_true (θ : ℚ) (f : ProcessedFact)
    (rest : List (ProcessedFact × Bool)) (approved : List (List ℚ)) :
    wbGo θ ((f, true) :: rest) approved = true :: wbGo θ rest approved := rfl

/-- Branch unfolding of `wbGo` on an unflagged head: the maximum similarity
against the approved embeddings decides. -/
theorem wbGo_cons_false (θ : ℚ) (f : ProcessedFact)
    (rest : List (ProcessedFact × Bool)) (approved : List (List ℚ)) :
    wbGo θ ((f, false) :: rest) approved =
      match (approved.map fun e => dotList e f.embedding).max? with
      | some maxSim =>
        if θ < maxSim then true :: wbGo θ rest approved
        else false :: wbGo θ rest (approved ++ [f.embedding])
      | none => false :: wbGo θ rest (approved ++ [f.embedding]) := rfl

/-- The inner dedup loop, characterised: a position is flagged in the output
iff it was DB-flagged, or some approved seed embedding exceeds the threshold
against it, or some earlier position that ended up approved exceeds the
threshold against it. -/
theorem wbGo_spec (θ : ℚ) (pairs : List (ProcessedFact × Bool))
    (approved : List (List ℚ)) :
    (wbGo θ pairs approved).length = pairs.length ∧
    ∀ i, i < pairs.length →
      ((wbGo θ pairs approved).getD i false = true ↔
        (pairs.getD i default).2 = true ∨
        (∃ e ∈ approved, θ < dotList e (pairs.getD i default).1.embedding) ∨
        ∃ j, j < i ∧ (wbGo θ pairs approved).getD j false = false ∧
          θ < dotList (pairs.getD j default).1.embedding
            (pairs.getD i default).1.embedding) := by
  induction pairs generalizing approved with
  | nil => exact ⟨rfl, fun i hi => by simp at hi⟩
  | cons p rest ih =>
    obtain ⟨f, b⟩ := p
    have specTrue : ∀ x : Bool,
        ((f, x).2 = true ∨ ∃ e ∈ approved, θ < dotList e f.embedding) →
        ((true :: wbGo θ rest approved).length = ((f, x) :: rest).length ∧
          ∀ i, i < ((f, x) :: rest).length →
            ((true :: wbGo θ rest approved).getD i false = true ↔
              (((f, x) :: rest).getD i default).2 = true ∨
              (∃ e ∈ approved,
                θ < dotList e ((((f, x) :: rest).getD i default).1.embedding)) ∨
              ∃ j, j < i ∧
                (true :: wbGo θ rest approved).getD j false = false ∧
                θ < dotList ((((f, x) :: rest).getD j default).1.embedding)
                  ((((f, x) :: rest).getD i default).1.embedding))) := by
      intro x hhead
      obtain ⟨ihlen, ihspec⟩ := ih approved
      refine ⟨by simpa using ihlen, ?_⟩
      intro i hi
      match i with
      | 0 =>
        simp only [List.getD_cons_zero]
        exact ⟨fun _ => hhead.imp id Or.inl, fun _ => trivial⟩
      | k + 1 =>
        simp only [List.getD_cons_succ, List.length_cons] at hi ⊢
        have hk : k < rest.length := by omega
        rw [ihspec k hk]
        constructor
        · rintro (h | ⟨e, he, hd⟩ | ⟨j, hj, hfalse, hd⟩)
          · exact Or.inl h
          · exact Or.inr (Or.inl ⟨e, he, hd⟩)
          · exact Or.inr (Or.inr ⟨j + 1, by omega, by simpa using hfalse,
              by simpa using hd⟩)
        · rintro (h | ⟨e, he, hd⟩ | ⟨j, hj, hfalse, hd⟩)
          · exact Or.inl h
          · exact Or.inr (Or.inl ⟨e, he, hd⟩)
          · match j with
            | 0 => simp at hfalse
            | j' + 1 =>
              exact Or.inr (Or.inr ⟨j', by omega, by simpa using hfalse,
                by simpa using hd⟩)
    have specApp :
        (∀ e ∈ approved, ¬ θ < dotList e f.embedding) →
        ((false :: wbGo θ rest (approved ++ [f.embedding])).length =
            ((f, false) :: rest).length ∧
          ∀ i, i < ((f, false) :: rest).length →
            ((false :: wbGo θ rest (approved ++ [f.embedding])).getD i false = true ↔
              (((f, false) :: rest).getD i default).2 = true ∨
              (∃ e ∈ approved,
                θ < dotList e ((((f, false) :: rest).getD i default).1.embedding)) ∨
              ∃ j, j < i ∧
                (false :: wbGo θ rest (approved ++ [f.embedding])).getD j false = false ∧
                θ < dotList ((((f, false) :: rest).getD j default).1.embedding)
                  ((((f, false) :: rest).getD i default).1.embedding))) := by
      intro hnot
      obtain ⟨ihlen, ihspec⟩ := ih (approved ++ [f.embedding])
      refine ⟨by simpa using ihlen, ?_⟩
      intro i hi
      match i with
      | 0 =>
        simp only [List.getD_cons_zero]
        constructor
        · intro h
          exact absurd h (by simp)
        · rintro (h | ⟨e, he, hd⟩ | ⟨j, hj, _, _⟩)
          · exact absurd h (by simp)
          · exact absurd hd (hnot e he)
          · exact absurd hj (by omega)
      | k + 1 =>
        simp only [List.getD_cons_succ, List.length_cons] at hi ⊢
        have hk : k < rest.length := by omega
        rw [ihspec k hk]
        constructor
        · rintro (h | ⟨e, he, hd⟩ | ⟨j, hj, hfalse, hd⟩)
          · exact Or.inl h
          · rcases List.mem_append.mp he with he | he
            · exact Or.inr (Or.inl ⟨e, he, hd⟩)
            · rw [List.mem_singleton] at he
              subst he
              exact Or.inr (Or.inr ⟨0, by omega, by simp, by simpa using hd⟩)
          · exact Or.inr (Or.inr ⟨j + 1, by omega, by simpa using hfalse,
              by simpa using hd⟩)
        · rintro (h | ⟨e, he, hd⟩ | ⟨j, hj, hfalse, hd⟩)
          · exact Or.inl h
          · exact Or.inr (Or.inl ⟨e, List.mem_append_left _ he, hd⟩)
          · match j with
            | 0 =>
              refine Or.inr (Or.inl ⟨f.embedding,
                List.mem_append_right _ (by simp), ?_⟩)
              simpa using hd
            | j' + 1 =>
              exact Or.inr (Or.inr ⟨j', by omega, by simpa using hfalse,
                by simpa using hd⟩)
    cases b with
    | true =>
      rw [wbGo_cons_true]
      exact specTrue true (Or.inl rfl)
    | false =>
      rw [wbGo_cons_false]
      split
      next maxSim hmax =>
        split
        next hcmp =>
          refine specTrue false (Or.inr ?_)
          have hmem := List.max?_mem (fun a b => max_choice a b) hmax
          obtain ⟨e, he, heq⟩ := List.mem_map.mp hmem
          exact ⟨e, he, heq ▸ hcmp⟩
        next hcmp =>
          refine specApp ?_
          intro e he hlt
          have hle : dotList e f.embedding ≤ maxSim :=
            (List.max?_le_iff (fun a b c => max_le_iff) hmax).mp le_rfl _
              (List.mem_map_of_mem _ he)
          exact hcmp (lt_of_lt_of_le hlt hle)
      next hmax =>
        refine specApp ?_
        have hempty : approved = [] :=
          List.map_eq_nil_iff.mp (List.max?_eq_none_iff.mp hmax)
        subst hempty
        intro e he
        simp at he

/-- Positional lookup in a zipped list is the pair of positional lookups. -/
theorem zip_getD (facts : List ProcessedFact) (flags : List Bool) (i : Nat)
    (hi : i < facts.length) (hf : i < flags.length) :
    (facts.zip flags).getD i default = (facts.getD i default, flags.getD i false) := by
  have hz : i < (facts.zip flags).length := by
    rw [List.length_zip]
    omega
  rw [List.getD_eq_getElem _ _ hz, List.getD_eq_getElem _ _ hi,
    List.getD_eq_getElem _ _ hf]
  exact List.getElem_zip

/-- C7: within-batch deduplication, characterised.  A fact is flagged in the
output iff it was a DB duplicate, or its dot-product similarity with some
earlier-indexed fact that ended up approved (non-duplicate) strictly exceeds
the threshold; and the earliest fact that is not a DB duplicate is always
preserved. -/
theorem c7_within_batch_dedup_iff (facts : List ProcessedFact)
    (flags : List Bool) (θ : ℚ) (hlen : flags.length = facts.length) :
    (_check_within_batch_duplicates facts flags θ).length = facts.length ∧
    (∀ i, i < facts.length →
      ((_check_within_batch_duplicates facts flags θ).getD i false = true ↔
        flags.getD i false = true ∨
        ∃ j, j < i ∧
          (_check_within_batch_duplicates facts flags θ).getD j false = false ∧
          θ < dotList (facts.getD j default).embedding
            (facts.getD i default).embedding)) ∧
    (∀ i, i < facts.length → flags.getD i false = false →
      (∀ j, j < i → flags.getD j false = true) →
      (_check_within_batch_duplicates facts flags θ).getD i false = false) := by
  by_cases hsmall : facts.length ≤ 1
  · have hout : _check_within_batch_duplicates facts flags θ = flags := by
      rw [_check_within_batch_duplicates, if_pos hsmall]
    rw [hout]
    have hchar : ∀ i, i < facts.length →
        (flags.getD i false = true ↔
          flags.getD i false = true ∨
          ∃ j, j < i ∧ flags.getD j false = false ∧
            θ < dotList (facts.getD j default).embedding
              (facts.getD i default).embedding) := by
      intro i hi
      have hi0 : i = 0 := by omega
      subst hi0
      constructor
      · exact Or.inl
      · rintro (h | ⟨j, hj, _, _⟩)
        · exact h
        · exact absurd hj (by omega)
    exact ⟨hlen, hchar, fun i _ hdb _ => hdb⟩
  · have hout : _check_within_batch_duplicates facts flags θ =
        wbGo θ (facts.zip flags) [] := by
      rw [_check_within_batch_duplicates, if_neg hsmall]
    obtain ⟨hl, hspec⟩ := wbGo_spec θ (facts.zip flags) []
    have hzlen : (facts.zip flags).length = facts.length := by
      rw [List.length_zip, hlen, Nat.min_self]
    have hgetD : ∀ i, i < facts.length →
        (facts.zip flags).getD i default =
          (facts.getD i default, flags.getD i false) :=
      fun i hi => zip_getD facts flags i hi (by omega)
    rw [hout]
    have hchar : ∀ i, i < facts.length →
        ((wbGo θ (facts.zip flags) []).getD i false = true ↔
          flags.getD i false = true ∨
          ∃ j, j < i ∧ (wbGo θ (facts.zip flags) []).getD j false = false ∧
            θ < dotList (facts.getD j default).embedding
              (facts.getD i default).embedding) := by
      intro i hi
      have hiz : i < (facts.zip flags).length := by omega
      have hthis := hspec i hiz
      rw [hgetD i hi] at hthis
      simp only [List.not_mem_nil, false_and, exists_false, or_false,
        exists_and_left, false_or] at hthis
      constructor
      · intro hT
        rcases hthis.mp hT with h | ⟨j, hj, hfalse, hd⟩
        · exact Or.inl h
        · refine Or.inr ⟨j, hj, hfalse, ?_⟩
          rwa [hgetD j (by omega)] at hd
      · rintro (h | ⟨j, hj, hfalse, hd⟩)
        · exact hthis.mpr (Or.inl h)
        · exact hthis.mpr (Or.inr ⟨j, hj, hfalse, by rwa [hgetD j (by omega)]⟩)
    refine ⟨by rw [hl, hzlen], hchar, ?_⟩
    intro i hi hdb hearlier
    have hbool := Bool.eq_false_or_eq_true ((wbGo θ (facts.zip flags) []).getD i false)
    rcases hbool with htrue | h
    swap
    · exact h
    rcases (hchar i hi).mp htrue with h | ⟨j, hj, hfalse, _⟩
    · rw [hdb] at h
      exact absurd h (by simp)
    · have hj1 : flags.getD j false = true := hearlier j hj
      have houtj : (wbGo θ (facts.zip flags) []).getD j false = true :=
        (hchar j (by omega)).mpr (Or.inl hj1)
      rw [houtj] at hfalse
      exact absurd hfalse (by simp)

/-- First dedup-witness fact (empty embedding, so the dot product is `0`). -/
def c7FactA : ProcessedFact :=
  { fact_text := "first wording"
    embedding := []
    occurred_start := none
    mentioned_at := none }

/-- Second dedup-witness fact, similar to the first (dot product `0` strictly
exceeds the witness threshold `-1`). -/
def c7FactB : ProcessedFact :=
  { fact_text := "second wording"
    embedding := []
    occurred_start := none
    mentioned_at := none }

/-- Closed witness for `c7_within_batch_dedup_iff`: at threshold `-1` the
second fact is marked as a within-batch duplicate of the approved first. -/
theorem c7_within_batch_dedup_iff_witness :
    (_check_within_batch_duplicates [c7FactA, c7FactB] [false, false]
      (-1)).getD 1 false = true :=
  ((c7_within_batch_dedup_iff [c7FactA, c7FactB] [false, false] (-1)
    (by decide)).2.1 1 (by decide)).mpr
    (Or.inr ⟨0, by decide, by decide, by decide⟩)

/-- The dot product is symmetric. -/
theorem dotList_comm (a b : List ℚ) : dotList a b = dotList b a := by
  induction a generalizing b with
  | nil => cases b <;> rfl
  | cons x xs ih =>
    cases b with
    | nil => rfl
    | cons y ys =>
      simp only [dotList, List.zip_cons_cons, List.map_cons, List.sum_cons] at *
      rw [mul_comm, ih ys]

/-- The candidate adjacency matrix is symmetric. -/
theorem adjacencyMatrix_symm (valid : List RetrievalResult) (τ : ℚ) (i j : Nat) :
    adjacencyMatrix valid τ i j = adjacencyMatrix valid τ j i := by
  unfold adjacencyMatrix simMatrix
  rw [dotList_comm]

/-- Membership in the unvisited-neighbour scan. -/
theorem mem_bfsNbrs {adj : Nat → Nat → Bool} {n : Nat} {visited : Finset Nat}
    {node j : Nat} :
    j ∈ bfsNbrs adj n visited node ↔ j < n ∧ j ∉ visited ∧ adj node j = true := by
  simp [bfsNbrs, List.mem_filter, List.mem_range, Bool.and_eq_true,
    decide_eq_true_eq, and_assoc]

/-- The neighbour scan has no duplicates. -/
theorem bfsNbrs_nodup (adj : Nat → Nat → Bool) (n : Nat) (visited : Finset Nat)
    (node : Nat) : (bfsNbrs adj n visited node).Nodup :=
  (List.nodup_range n).filter _

/-- Marking the scanned neighbours shrinks the unvisited region by exactly
their number. -/
theorem card_sdiff_bfsNbrs (adj : Nat → Nat → Bool) (n : Nat)
    (visited : Finset Nat) (node : Nat) :
    (Finset.range n \ (visited ∪ (bfsNbrs adj n visited node).toFinset)).card =
      (Finset.range n \ visited).card - (bfsNbrs adj n visited node).length ∧
    (bfsNbrs adj n visited node).length ≤ (Finset.range n \ visited).card := by
  have hsub : (bfsNbrs adj n visited node).toFinset ⊆ Finset.range n \ visited := by
    intro j hj
    rw [List.mem_toFinset, mem_bfsNbrs] at hj
    rw [Finset.mem_sdiff, Finset.mem_range]
    exact ⟨hj.1, hj.2.1⟩
  have hcard : (bfsNbrs adj n visited node).toFinset.card =
      (bfsNbrs adj n visited node).length :=
    List.toFinset_card_of_nodup (bfsNbrs_nodup adj n visited node)
  have hset : Finset.range n \ (visited ∪ (bfsNbrs adj n visited node).toFinset) =
      (Finset.range n \ visited) \ (bfsNbrs adj n visited node).toFinset := by
    ext x
    simp only [Finset.mem_sdiff, Finset.mem_union]
    tauto
  constructor
  · rw [hset, Finset.card_sdiff hsub, hcard]
  · rw [← hcard]
    exact Finset.card_le_card hsub

/-- The BFS queue-loop invariant.  Run with enough fuel on a well-formed
state (queue and component visited, duplicate-free, disjoint, fresh over the
pre-BFS visited set `V0`, reachable from the start `s`, processed nodes fully
expanded), the loop returns a pair `(component, finalVisited)` whose visited
set is exactly `V0` plus the component, whose component is duplicate-free,
fresh, fully expanded, reachable from `s`, and which absorbs both the current
component and the whole queue. -/
theorem bfsAux_invariant (adj : Nat → Nat → Bool) (n : Nat) (s : Nat)
    (V0 : Finset Nat) :
    ∀ (fuel : Nat) (visited : Finset Nat) (queue comp : List Nat),
    (Finset.range n \ visited).card + queue.length ≤ fuel →
    visited ⊆ Finset.range n →
    (∀ x ∈ queue, x ∈ visited) →
    (∀ x ∈ comp, x ∈ visited) →
    queue.Nodup → comp.Nodup →
    (∀ x ∈ comp, x ∉ queue) →
    V0 ⊆ visited →
    (∀ x ∈ visited, x ∈ V0 ∨ x ∈ comp ∨ x ∈ queue) →
    (∀ x ∈ comp, ∀ y, y < n → adj x y = true → y ∈ visited) →
    (∀ x ∈ comp, x ∉ V0) →
    (∀ x ∈ queue, x ∉ V0) →
    (∀ x, (x ∈ comp ∨ x ∈ queue) → ReachAdj adj n s x) →
    (∀ x, x ∈ (bfsAux adj n fuel visited queue comp).2 ↔
        (x ∈ V0 ∨ x ∈ (bfsAux adj n fuel visited queue comp).1)) ∧
    (bfsAux adj n fuel visited queue comp).1.Nodup ∧
    (∀ x ∈ (bfsAux adj n fuel visited queue comp).1, x ∉ V0) ∧
    (∀ x ∈ (bfsAux adj n fuel visited queue comp).1, ∀ y, y < n →
      adj x y = true → y ∈ (bfsAux adj n fuel visited queue comp).2) ∧
    (∀ x ∈ (bfsAux adj n fuel visited queue comp).1, ReachAdj adj n s x) ∧
    (∀ x ∈ comp, x ∈ (bfsAux adj n fuel visited queue comp).1) ∧
    (visited ⊆ (bfsAux adj n fuel visited queue comp).2) ∧
    ((bfsAux adj n fuel visited queue comp).2 ⊆ Finset.range n) ∧
    (∀ x ∈ queue, x ∈ (bfsAux adj n fuel visited queue comp).1) := by
  intro fuel
  induction fuel with
  | zero =>
    intro visited queue comp hfuel hvr hq hc hnq hnc hdisj hV0 hcover hexp
      hfresh hfreshq hreach
    have hqe : queue = [] := by
      cases queue with
      | nil => rfl
      | cons a l => simp at hfuel
    subst hqe
    refine ⟨?_, hnc, hfresh, hexp, fun x hx => hreach x (Or.inl hx),
      fun x hx => hx, fun x hx => hx, hvr,
      fun x hx => absurd hx (List.not_mem_nil x)⟩
    intro x
    constructor
    · intro hx
      rcases hcover x hx with h | h | h
      · exact Or.inl h
      · exact Or.inr h
      · exact absurd h (List.not_mem_nil x)
    · rintro (h | h)
      · exact hV0 h
      · exact hc x h
  | succ fuel ih =>
    intro visited queue comp hfuel hvr hq hc hnq hnc hdisj hV0 hcover hexp
      hfresh hfreshq hreach
    cases queue with
    | nil =>
      refine ⟨?_, hnc, hfresh, hexp, fun x hx => hreach x (Or.inl hx),
        fun x hx => hx, fun x hx => hx, hvr,
        fun x hx => absurd hx (List.not_mem_nil x)⟩
      intro x
      constructor
      · intro hx
        rcases hcover x hx with h | h | h
        · exact Or.inl h
        · exact Or.inr h
        · exact absurd h (List.not_mem_nil x)
      · rintro (h | h)
        · exact hV0 h
        · exact hc x h
    | cons node rest =>
      have hnodev : node ∈ visited := hq node (List.mem_cons_self node rest)
      have hnoden : node < n := Finset.mem_range.mp (hvr hnodev)
      have hcards := card_sdiff_bfsNbrs adj n visited node
      have hnbrsub : (bfsNbrs adj n visited node).toFinset ⊆ Finset.range n := by
        intro j hj
        rw [List.mem_toFinset, mem_bfsNbrs] at hj
        exact Finset.mem_range.mpr hj.1
      have hnbrfresh : ∀ x ∈ bfsNbrs adj n visited node, x ∉ visited :=
        fun x hx => (mem_bfsNbrs.mp hx).2.1
      -- establish the starred invariants and apply the induction hypothesis
      have hstep := ih (visited ∪ (bfsNbrs adj n visited node).toFinset)
        (rest ++ bfsNbrs adj n visited node) (comp ++ [node])
        (by
          simp only [List.length_append, List.length_cons] at hfuel ⊢
          rw [hcards.1]
          omega)
        (Finset.union_subset hvr hnbrsub)
        (by
          intro x hx
          rcases List.mem_append.mp hx with h | h
          · exact Finset.mem_union_left _ (hq x (List.mem_cons_of_mem node h))
          · exact Finset.mem_union_right _ (List.mem_toFinset.mpr h))
        (by
          intro x hx
          rcases List.mem_append.mp hx with h | h
          · exact Finset.mem_union_left _ (hc x h)
          · rw [List.mem_singleton] at h
            subst h
            exact Finset.mem_union_left _ hnodev)
        (by
          refine List.Nodup.append ((List.nodup_cons.mp hnq).2)
            (bfsNbrs_nodup adj n visited node) ?_
          intro a ha hanbr
          exact hnbrfresh a hanbr (hq a (List.mem_cons_of_mem node ha)))
        (by
          refine List.Nodup.append hnc (List.nodup_singleton node) ?_
          intro a ha han
          rw [List.mem_singleton] at han
          subst han
          exact hdisj a ha (List.mem_cons_self a rest))
        (by
          intro x hx hmem
          rcases List.mem_append.mp hmem with hm | hm
          · rcases List.mem_append.mp hx with h | h
            · exact hdisj x h (List.mem_cons_of_mem node hm)
            · rw [List.mem_singleton] at h
              subst h
              exact (List.nodup_cons.mp hnq).1 hm
          · rcases List.mem_append.mp hx with h | h
            · exact hnbrfresh x hm (hc x h)
            · rw [List.mem_singleton] at h
              subst h
              exact hnbrfresh x hm hnodev)
        (fun x hx => Finset.mem_union_left _ (hV0 hx))
        (by
          intro x hx
          rcases Finset.mem_union.mp hx with h | h
          · rcases hcover x h with h0 | h0 | h0
            · exact Or.inl h0
            · exact Or.inr (Or.inl (List.mem_append_left _ h0))
            · rcases List.mem_cons.mp h0 with h1 | h1
              · subst h1
                exact Or.inr (Or.inl (List.mem_append_right _
                  (List.mem_singleton_self x)))
              · exact Or.inr (Or.inr (List.mem_append_left _ h1))
          · exact Or.inr (Or.inr (List.mem_append_right _
              (List.mem_toFinset.mp h))))
        (by
          intro x hx y hy hadj
          rcases List.mem_append.mp hx with h | h
          · exact Finset.mem_union_left _ (hexp x h y hy hadj)
          · rw [List.mem_singleton] at h
            subst h
            by_cases hyv : y ∈ visited
            · exact Finset.mem_union_left _ hyv
            · exact Finset.mem_union_right _ (List.mem_toFinset.mpr
                (mem_bfsNbrs.mpr ⟨hy, hyv, hadj⟩)))
        (by
          intro x hx
          rcases List.mem_append.mp hx with h | h
          · exact hfresh x h
          · rw [List.mem_singleton] at h
            subst h
            exact hfreshq x (List.mem_cons_self x rest))
        (by
          intro x hx
          rcases List.mem_append.mp hx with h | h
          · exact hfreshq x (List.mem_cons_of_mem node h)
          · exact fun hV => hnbrfresh x h (hV0 hV))
        (by
          intro x hx
          rcases hx with h | h
          · rcases List.mem_append.mp h with h1 | h1
            · exact hreach x (Or.inl h1)
            · rw [List.mem_singleton] at h1
              subst h1
              exact hreach x (Or.inr (List.mem_cons_self x rest))
          · rcases List.mem_append.mp h with h1 | h1
            · exact hreach x (Or.inr (List.mem_cons_of_mem node h1))
            · have hmem := mem_bfsNbrs.mp h1
              exact Relation.ReflTransGen.tail
                (hreach node (Or.inr (List.mem_cons_self node rest)))
                ⟨hnoden, hmem.1, hmem.2.2⟩)
      obtain ⟨g1, g2, g3, g4, g5, g6, g7, g8, g9⟩ := hstep
      simp only [bfsAux]
      refine ⟨g1, g2, g3, g4, g5, ?_, ?_, g8, ?_⟩
      · exact fun x hx => g6 x (List.mem_append_left _ hx)
      · exact fun x hx => g7 (Finset.mem_union_left _ hx)
      · intro x hx
        rcases List.mem_cons.mp hx with h | h
        · subst h
          exact g6 x (List.mem_append_right _ (List.mem_singleton_self x))
        · exact g9 x (List.mem_append_left _ h)

/-- Reachability over a symmetric adjacency is symmetric. -/
theorem reachAdj_symm {adj : Nat → Nat → Bool} {n : Nat}
    (hsym : ∀ i j, adj i j = adj j i) {u v : Nat}
    (h : ReachAdj adj n u v) : ReachAdj adj n v u := by
  induction h with
  | refl => exact Relation.ReflTransGen.refl
  | tail _ hbc ihrev =>
    exact Relation.ReflTransGen.head
      ⟨hbc.2.1, hbc.1, by rw [hsym]; exact hbc.2.2⟩ ihrev

/-- The outer component-collection loop invariant: starting from a visited set
that is closed under adjacency, every produced component is non-empty,
duplicate-free, fresh and in range, mutually reachable, and closed under
reachability; the components are globally disjoint; and every unvisited start
is covered. -/
theorem componentsGo_invariant (adj : Nat → Nat → Bool) (n : Nat)
    (hsym : ∀ i j, adj i j = adj j i) :
    ∀ (starts : List Nat) (visited : Finset Nat),
    (∀ s ∈ starts, s < n) →
    visited ⊆ Finset.range n →
    (∀ x ∈ visited, ∀ y, y < n → adj x y = true → y ∈ visited) →
    (∀ c ∈ componentsGo adj n starts visited, c ≠ [] ∧ c.Nodup ∧
      (∀ x ∈ c, x < n ∧ x ∉ visited) ∧
      (∀ u ∈ c, ∀ v ∈ c, ReachAdj adj n u v) ∧
      (∀ u ∈ c, ∀ v, ReachAdj adj n u v → v ∈ c)) ∧
    ((componentsGo adj n starts visited).flatten.Nodup) ∧
    (∀ x, x < n → x ∉ visited → x ∈ starts →
      x ∈ (componentsGo adj n starts visited).flatten) := by
  intro starts
  induction starts with
  | nil =>
    intro visited _ _ _
    refine ⟨?_, ?_, ?_⟩
    · intro c hc
      simp [componentsGo] at hc
    · simp [componentsGo]
    · intro x _ _ hx
      exact absurd hx (List.not_mem_nil x)
  | cons start rest ih =>
    intro visited hstarts hvr hclosed
    by_cases hsv : start ∈ visited
    · have hrw : componentsGo adj n (start :: rest) visited =
          componentsGo adj n rest visited := by
        rw [componentsGo, if_pos hsv]
      rw [hrw]
      obtain ⟨ihA, ihB, ihC⟩ := ih visited
        (fun s hs => hstarts s (List.mem_cons_of_mem start hs)) hvr hclosed
      refine ⟨ihA, ihB, ?_⟩
      intro x hxn hxv hxs
      rcases List.mem_cons.mp hxs with h | h
      · subst h
        exact absurd hsv hxv
      · exact ihC x hxn hxv h
    · have hstartn : start < n := hstarts start (List.mem_cons_self start rest)
      have hrw : componentsGo adj n (start :: rest) visited =
          (bfsAux adj n (n + 1) (insert start visited) [start] []).1 ::
            componentsGo adj n rest
              (bfsAux adj n (n + 1) (insert start visited) [start] []).2 := by
        rw [componentsGo, if_neg hsv]
      obtain ⟨g1, g2, g3, g4, g5, _, g7, g8, g9⟩ :=
        bfsAux_invariant adj n start visited (n + 1) (insert start visited)
          [start] []
          (by
            have hle : (Finset.range n \ insert start visited).card ≤ n := by
              calc (Finset.range n \ insert start visited).card
                  ≤ (Finset.range n).card := Finset.card_le_card
                    (Finset.sdiff_subset)
                _ = n := Finset.card_range n
            simp only [List.length_singleton]
            omega)
          (Finset.insert_subset (Finset.mem_range.mpr hstartn) hvr)
          (by
            intro x hx
            rw [List.mem_singleton] at hx
            subst hx
            exact Finset.mem_insert_self x visited)
          (fun x hx => absurd hx (List.not_mem_nil x))
          (List.nodup_singleton start) List.nodup_nil
          (fun x hx => absurd hx (List.not_mem_nil x))
          (Finset.subset_insert start visited)
          (by
            intro x hx
            rcases Finset.mem_insert.mp hx with h | h
            · subst h
              exact Or.inr (Or.inr (List.mem_singleton_self x))
            · exact Or.inl h)
          (fun x hx => absurd hx (List.not_mem_nil x))
          (fun x hx => absurd hx (List.not_mem_nil x))
          (by
            intro x hx
            rw [List.mem_singleton] at hx
            subst hx
            exact hsv)
          (by
            intro x hx
            rcases hx with h | h
            · exact absurd h (List.not_mem_nil x)
            · rw [List.mem_singleton] at h
              subst h
              exact Relation.ReflTransGen.refl)
      set comp' := (bfsAux adj n (n + 1) (insert start visited) [start] []).1
        with hcomp'
      set visited' := (bfsAux adj n (n + 1) (insert start visited) [start] []).2
        with hvisited'
      have hstartmem : start ∈ comp' := g9 start (List.mem_singleton_self start)
      have hcompn : ∀ x ∈ comp', x < n := by
        intro x hx
        exact Finset.mem_range.mp (g8 ((g1 x).mpr (Or.inr hx)))
      have hfreshc : ∀ x ∈ comp', x ∉ visited := g3
      have hsubvv : visited ⊆ visited' :=
        fun x hx => g7 (Finset.mem_insert_of_mem hx)
      have hclosed' : ∀ x ∈ visited', ∀ y, y < n → adj x y = true →
          y ∈ visited' := by
        intro x hx y hy hadj
        rcases (g1 x).mp hx with h | h
        · exact hsubvv (hclosed x h y hy hadj)
        · exact g4 x h y hy hadj
      have hsound : ∀ u ∈ comp', ∀ v ∈ comp', ReachAdj adj n u v := by
        intro u hu v hv
        exact Relation.ReflTransGen.trans (reachAdj_symm hsym (g5 u hu)) (g5 v hv)
      have hcomplete : ∀ u ∈ comp', ∀ v, ReachAdj adj n u v → v ∈ comp' := by
        intro u hu v hpath
        induction hpath with
        | refl => exact hu
        | tail hwpath hstep ihw =>
          have hw := ihw
          have hvmem : _ ∈ visited' := g4 _ hw _ hstep.2.1 hstep.2.2
          rcases (g1 _).mp hvmem with h | h
          · exfalso
            have : _ ∈ visited := hclosed _ h _ hstep.1 (by
              rw [hsym]
              exact hstep.2.2)
            exact hfreshc _ hw this
          · exact h
      rw [hrw]
      obtain ⟨ihA, ihB, ihC⟩ := ih visited'
        (fun s hs => hstarts s (List.mem_cons_of_mem start hs)) g8 hclosed'
      have hrestfresh : ∀ x ∈ (componentsGo adj n rest visited').flatten,
          x ∉ visited' := by
        intro x hx
        rw [List.mem_flatten] at hx
        obtain ⟨c, hc, hxc⟩ := hx
        exact ((ihA c hc).2.2.1 x hxc).2
      refine ⟨?_, ?_, ?_⟩
      · intro c hc
        rcases List.mem_cons.mp hc with h | h
        · subst h
          refine ⟨?_, g2, fun x hx => ⟨hcompn x hx, hfreshc x hx⟩, hsound,
            hcomplete⟩
          intro hre
          rw [hre] at hstartmem
          exact absurd hstartmem (List.not_mem_nil start)
        · obtain ⟨hne, hnd, hfr, hso, hco⟩ := ihA c h
          exact ⟨hne, hnd, fun x hx => ⟨(hfr x hx).1,
            fun hv => (hfr x hx).2 (hsubvv hv)⟩, hso, hco⟩
      · rw [List.flatten_cons]
        refine List.Nodup.append g2 ihB ?_
        intro a ha harest
        exact hrestfresh a harest ((g1 a).mpr (Or.inr ha))
      · intro x hxn hxv hxs
        rw [List.flatten_cons, List.mem_append]
        rcases List.mem_cons.mp hxs with h | h
        · subst h
          exact Or.inl hstartmem
        · by_cases hx' : x ∈ visited'
          · rcases (g1 x).mp hx' with h0 | h0
            · exact absurd h0 hxv
            · exact Or.inl h0
          · exact Or.inr (ihC x hxn hx' h)

/-- `_connected_components` on a symmetric adjacency computes exactly the
connected components: the components are non-empty, duplicate-free, in range
and globally disjoint; every node below `n` lies in exactly one; and two
nodes share a component iff they are reachable. -/
theorem connected_components_spec (adj : Nat → Nat → Bool) (n : Nat)
    (hsym : ∀ i j, adj i j = adj j i) :
    (∀ c ∈ _connected_components adj n, c ≠ [] ∧ c.Nodup ∧ ∀ x ∈ c, x < n) ∧
    (_connected_components adj n).flatten.Nodup ∧
    (∀ x, x < n ↔ x ∈ (_connected_components adj n).flatten) ∧
    (∀ i j, i < n → j < n →
      ((∃ c ∈ _connected_components adj n, i ∈ c ∧ j ∈ c) ↔
        ReachAdj adj n i j)) := by
  obtain ⟨hA, hB, hC⟩ := componentsGo_invariant adj n hsym (List.range n) ∅
    (fun s hs => List.mem_range.mp hs) (Finset.empty_subset _)
    (fun x hx => absurd hx (Finset.not_mem_empty x))
  rw [_connected_components] at *
  refine ⟨?_, hB, ?_, ?_⟩
  · intro c hc
    obtain ⟨hne, hnd, hfr, _, _⟩ := hA c hc
    exact ⟨hne, hnd, fun x hx => (hfr x hx).1⟩
  · intro x
    constructor
    · intro hx
      exact hC x hx (Finset.not_mem_empty x) (List.mem_range.mpr hx)
    · intro hx
      rw [List.mem_flatten] at hx
      obtain ⟨c, hc, hxc⟩ := hx
      exact ((hA c hc).2.2.1 x hxc).1
  · intro i j hi hj
    constructor
    · rintro ⟨c, hc, hic, hjc⟩
      exact (hA c hc).2.2.2.1 i hic j hjc
    · intro hre
      have hif : i ∈ (componentsGo adj n (List.range n) ∅).flatten :=
        hC i hi (Finset.not_mem_empty i) (List.mem_range.mpr hi)
      rw [List.mem_flatten] at hif
      obtain ⟨c, hc, hic⟩ := hif
      exact ⟨c, hc, hic, (hA c hc).2.2.2.2 i hic j hre⟩

/-- The representative fold on a non-empty seed: it returns an element whose
score dominates the seed and every scanned element. -/
theorem selectBest_fold (score : Nat → ℚ) :
    ∀ (l : List Nat) (b0 : Nat),
    ∃ bi, l.foldl
        (fun best idx =>
          match best with
          | none => some (idx, score idx)
          | some (bj, bs) =>
            if bs < score idx then some (idx, score idx) else some (bj, bs))
        (some (b0, score b0)) = some (bi, score bi) ∧
      (bi = b0 ∨ bi ∈ l) ∧ score b0 ≤ score bi ∧ ∀ i ∈ l, score i ≤ score bi := by
  intro l
  induction l with
  | nil =>
    intro b0
    exact ⟨b0, rfl, Or.inl rfl, le_refl _,
      fun i hi => absurd hi (List.not_mem_nil i)⟩
  | cons x xs ih =>
    intro b0
    simp only [List.foldl_cons]
    by_cases hlt : score b0 < score x
    · rw [if_pos hlt]
      obtain ⟨bi, heq, hmem, hge, hbound⟩ := ih x
      refine ⟨bi, heq, ?_, le_of_lt (lt_of_lt_of_le hlt hge), ?_⟩
      · rcases hmem with h | h
        · exact Or.inr (h ▸ List.mem_cons_self x xs)
        · exact Or.inr (List.mem_cons_of_mem x h)
      · intro i hi
        rcases List.mem_cons.mp hi with h | h
        · subst h
          exact hge
        · exact hbound i h
    · rw [if_neg hlt]
      obtain ⟨bi, heq, hmem, hge, hbound⟩ := ih b0
      refine ⟨bi, heq, ?_, hge, ?_⟩
      · rcases hmem with h | h
        · exact Or.inl h
        · exact Or.inr (List.mem_cons_of_mem x h)
      · intro i hi
        rcases List.mem_cons.mp hi with h | h
        · subst h
          exact le_trans (le_of_not_lt hlt) hge
        · exact hbound i h

/-- On a non-empty component, `selectBestIdx` picks a member whose composed
score dominates every member. -/
theorem selectBestIdx_spec (score : Nat → ℚ) (component : List Nat)
    (hne : component ≠ []) :
    selectBestIdx score component ∈ component ∧
    ∀ i ∈ component, score i ≤ score (selectBestIdx score component) := by
  match component, hne with
  | x :: xs, _ =>
    obtain ⟨bi, heq, hmem, hge, hbound⟩ := selectBest_fold score xs x
    have hsb : selectBest score (x :: xs) = some (bi, score bi) := by
      rw [selectBest, List.foldl_cons]
      exact heq
    have hidx : selectBestIdx score (x :: xs) = bi := by
      rw [selectBestIdx, hsb]
      rfl
    rw [hidx]
    constructor
    · rcases hmem with h | h
      · exact h ▸ List.mem_cons_self x xs
      · exact List.mem_cons_of_mem x h
    · intro i hi
      rcases List.mem_cons.mp hi with h | h
      · subst h
        exact hge
      · exact hbound i h

/-- Unfolding of the `k`-th pre-sort representative: it is built from the
`k`-th component via the best-score scan. -/
theorem clusterRepresentatives_getD (candidates : List RetrievalResult)
    (query_embedding : List ℚ) (τ : ℚ) (now : Int) (lengthBonus : Nat → ℚ)
    (k : Nat) (hk : k < (clusterComponents candidates τ).length) :
    (clusterRepresentatives candidates query_embedding τ now lengthBonus).getD
        k default =
      { result := (validCandidates candidates).getD
          (selectBestIdx
            (fun idx => candidateScore now lengthBonus
              (querySims (validCandidates candidates) query_embedding idx)
              ((validCandidates candidates).getD idx default))
            ((clusterComponents candidates τ).getD k [])) default
        cluster_id := k
        cluster_size := ((clusterComponents candidates τ).getD k []).length
        query_similarity := querySims (validCandidates candidates)
          query_embedding
          (selectBestIdx
            (fun idx => candidateScore now lengthBonus
              (querySims (validCandidates candidates) query_embedding idx)
              ((validCandidates candidates).getD idx default))
            ((clusterComponents candidates τ).getD k [])) } := by
  have h2 : k < ((clusterComponents candidates τ).enum.map
      (fun p => (⟨(validCandidates candidates).getD
          (selectBestIdx
            (fun idx => candidateScore now lengthBonus
              (querySims (validCandidates candidates) query_embedding idx)
              ((validCandidates candidates).getD idx default)) p.2) default,
        p.1, p.2.length,
        querySims (validCandidates candidates) query_embedding
          (selectBestIdx
            (fun idx => candidateScore now lengthBonus
              (querySims (validCandidates candidates) query_embedding idx)
              ((validCandidates candidates).getD idx default)) p.2)⟩ :
          ClusterRepresentative))).length := by
    simpa using hk
  have hrw : clusterRepresentatives candidates query_embedding τ now
      lengthBonus =
      (clusterComponents candidates τ).enum.map
      (fun p => (⟨(validCandidates candidates).getD
          (selectBestIdx
            (fun idx => candidateScore now lengthBonus
              (querySims (validCandidates candidates) query_embedding idx)
              ((validCandidates candidates).getD idx default)) p.2) default,
        p.1, p.2.length,
        querySims (validCandidates candidates) query_embedding
          (selectBestIdx
            (fun idx => candidateScore now lengthBonus
              (querySims (validCandidates candidates) query_embedding idx)
              ((validCandidates candidates).getD idx default)) p.2)⟩ :
          ClusterRepresentative)) := rfl
  rw [hrw, List.getD_eq_getElem _ _ h2, List.getElem_map, List.getElem_enum,
    List.getD_eq_getElem _ _ hk]

/-- C8 counterexample: the claim's fact-type bonus chain `observation >
experience > world > opinion` is not strictly ordered at its tail — the code
gives `world` and `opinion` the same bonus (`0.0`), so
`typeBonus "world" > typeBonus "opinion"` is false. -/
theorem c8_counterexample_world_opinion_bonus_equal :
    typeBonus "world" = typeBonus "opinion" ∧
    ¬ typeBonus "world" > typeBonus "opinion" := by
  constructor
  · rfl
  · intro h
    exact absurd h (by decide)

/-- C8 (amended): diversity selection computes the connected components of
the graph joining valid candidates whose pairwise similarity is at or above
the threshold, and returns exactly one representative per component, chosen
to maximise the composed score; the fact-type bonus is ordered `observation >
experience > world = opinion` (the tail tie replacing the claim's strict
chain), and the recency term decays linearly over one year with a floor of
`0.05`. -/
theorem c8_diversity_selection_spec (candidates : List RetrievalResult)
    (query_embedding : List ℚ) (τ : ℚ) (now : Int) (lengthBonus : Nat → ℚ) :
    (∀ c ∈ clusterComponents candidates τ, c ≠ [] ∧ c.Nodup ∧
      ∀ x ∈ c, x < (validCandidates candidates).length) ∧
    (clusterComponents candidates τ).flatten.Nodup ∧
    (∀ i, i < (validCandidates candidates).length ↔
      i ∈ (clusterComponents candidates τ).flatten) ∧
    (∀ i j, i < (validCandidates candidates).length →
      j < (validCandidates candidates).length →
      ((∃ c ∈ clusterComponents candidates τ, i ∈ c ∧ j ∈ c) ↔
        ReachAdj (adjacencyMatrix (validCandidates candidates) τ)
          (validCandidates candidates).length i j)) ∧
    (clusterRepresentatives candidates query_embedding τ now
        lengthBonus).length = (clusterComponents candidates τ).length ∧
    (∀ k, k < (clusterComponents candidates τ).length →
      ((clusterRepresentatives candidates query_embedding τ now
          lengthBonus).getD k default).cluster_size =
        ((clusterComponents candidates τ).getD k []).length ∧
      ∃ idx ∈ (clusterComponents candidates τ).getD k [],
        ((clusterRepresentatives candidates query_embedding τ now
            lengthBonus).getD k default).result =
          (validCandidates candidates).getD idx default ∧
        ((clusterRepresentatives candidates query_embedding τ now
            lengthBonus).getD k default).query_similarity =
          querySims (validCandidates candidates) query_embedding idx ∧
        ∀ i ∈ (clusterComponents candidates τ).getD k [],
          candidateScore now lengthBonus
            (querySims (validCandidates candidates) query_embedding i)
            ((validCandidates candidates).getD i default) ≤
          candidateScore now lengthBonus
            (querySims (validCandidates candidates) query_embedding idx)
            ((validCandidates candidates).getD idx default)) ∧
    (cluster_and_select candidates query_embedding τ now lengthBonus).Perm
      (clusterRepresentatives candidates query_embedding τ now lengthBonus) ∧
    (typeBonus "experience" < typeBonus "observation" ∧
      typeBonus "world" < typeBonus "experience" ∧
      typeBonus "world" = typeBonus "opinion") ∧
    ((∀ r : RetrievalResult, 5 / 100 ≤ recencyScore now r) ∧
      (∀ r : RetrievalResult, bestDate r = none →
        recencyScore now r = 5 / 100) ∧
      (∀ (r : RetrievalResult) (dt : Int), bestDate r = some dt →
        0 ≤ now - dt → ((now - dt : Int) : ℚ) / 86400 ≤ 365 * (19 / 20) →
        recencyScore now r = 1 - (((now - dt : Int) : ℚ) / 86400) / 365) ∧
      (∀ (r : RetrievalResult) (dt : Int), bestDate r = some dt →
        365 * (19 / 20) ≤ ((now - dt : Int) : ℚ) / 86400 →
        recencyScore now r = 5 / 100)) := by
  obtain ⟨hA, hB, hC, hD⟩ := connected_components_spec
    (adjacencyMatrix (validCandidates candidates) τ)
    (validCandidates candidates).length
    (adjacencyMatrix_symm (validCandidates candidates) τ)
  refine ⟨hA, hB, hC, hD, ?_, ?_, ?_, ?_, ?_⟩
  · simp [clusterRepresentatives]
  · intro k hk
    rw [clusterRepresentatives_getD candidates query_embedding τ now
      lengthBonus k hk]
    have hmem : (clusterComponents candidates τ).getD k [] ∈
        clusterComponents candidates τ := by
      rw [List.getD_eq_getElem _ _ hk]
      exact List.getElem_mem hk
    have hne : (clusterComponents candidates τ).getD k [] ≠ [] :=
      (hA _ hmem).1
    obtain ⟨hsel, hbound⟩ := selectBestIdx_spec
      (fun idx => candidateScore now lengthBonus
        (querySims (validCandidates candidates) query_embedding idx)
        ((validCandidates candidates).getD idx default))
      ((clusterComponents candidates τ).getD k []) hne
    exact ⟨rfl, _, hsel, rfl, rfl, hbound⟩
  · by_cases hce : candidates.isEmpty
    · have hc : candidates = [] := List.isEmpty_iff.mp hce
      subst hc
      rw [cluster_and_select]
      simp only [List.isEmpty_nil, if_true]
      have hreps : clusterRepresentatives [] query_embedding τ now
          lengthBonus = [] := rfl
      rw [hreps]
    · by_cases hve : (validCandidates candidates).isEmpty
      · have hv : validCandidates candidates = [] := List.isEmpty_iff.mp hve
        rw [cluster_and_select, if_neg hce, if_pos hve]
        have hreps : clusterRepresentatives candidates query_embedding τ now
            lengthBonus = [] := by
          rw [clusterRepresentatives, clusterComponents, hv]
          rfl
        rw [hreps]
      · rw [cluster_and_select, if_neg hce, if_neg hve]
        exact List.mergeSort_perm _ _
  · refine ⟨?_, ?_, rfl⟩
    · have h1 : typeBonus "experience" = 2 / 10 := rfl
      have h2 : typeBonus "observation" = 3 / 10 := rfl
      rw [h1, h2]
      norm_num
    · have h1 : typeBonus "world" = 0 := rfl
      have h2 : typeBonus "experience" = 2 / 10 := rfl
      rw [h1, h2]
      norm_num
  · refine ⟨?_, ?_, ?_, ?_⟩
    · intro r
      rw [recencyScore]
      cases h : bestDate r
      · exact le_refl _
      · exact le_max_left _ _
    · intro r h
      rw [recencyScore, h]
    · intro r dt h h0 hlin
      have hd0 : (0 : ℚ) ≤ ((now - dt : Int) : ℚ) / 86400 := by
        apply div_nonneg _ (by norm_num)
        exact_mod_cast h0
      have hgoal : recencyScore now r =
          max (5 / 100)
            (1 - (max 0 (((now - dt : Int) : ℚ) / 86400)) / 365) := by
        rw [recencyScore, h]
      rw [hgoal, max_eq_right hd0, max_eq_right]
      linarith
    · intro r dt h hyear
      have hd0 : (0 : ℚ) ≤ ((now - dt : Int) : ℚ) / 86400 := by
        have h1 : (0 : ℚ) ≤ 365 * (19 / 20) := by norm_num
        linarith
      have hgoal : recencyScore now r =
          max (5 / 100)
            (1 - (max 0 (((now - dt : Int) : ℚ) / 86400)) / 365) := by
        rw [recencyScore, h]
      rw [hgoal, max_eq_right hd0, max_eq_left]
      linarith

/-- Witness candidate: one valid candidate with a (normalised, here empty)
embedding. -/
def c8Candidate : RetrievalResult :=
  { text := "Igor is CTO"
    fact_type := "observation"
    embedding := some []
    occurred_start := none
    occurred_end := none
    mentioned_at := some 0
    event_date := none }

/-- Witness candidate without any date: its best date is `none`. -/
def c8NoDate : RetrievalResult :=
  { text := "fact without dates"
    fact_type := "world"
    embedding := some []
    occurred_start := none
    occurred_end := none
    mentioned_at := none
    event_date := none }

/-- Closed witness for `c8_diversity_selection_spec`: on the one-candidate
input the reachable pair `(0, 0)` shares a component, and a dateless record
gets the floor recency `0.05`. -/
theorem c8_diversity_selection_spec_witness :
    (∃ c ∈ clusterComponents [c8Candidate] 0, 0 ∈ c ∧ 0 ∈ c) ∧
    recencyScore 0 c8NoDate = 5 / 100 := by
  obtain ⟨hA, hB, hC, hD, hL, hK, hP, hT, hE⟩ :=
    c8_diversity_selection_spec [c8Candidate] [] 0 0 (fun _ => 0)
  constructor
  · exact (hD 0 0 (by decide) (by decide)).mpr Relation.ReflTransGen.refl
  · exact hE.2.1 c8NoDate rfl

end Hindsight
